import Mathlib

/-!
Verification of the MRP solver engine (`backend/solver_engine.py`).

The embedding below mirrors `run_solver` and its inner recursive `resolve`
function.  Dates are represented as day offsets (`ℤ`, ISO-string order in the
source coincides with integer order), quantities as exact rationals (`ℚ`),
and the three mutable ledgers (`transient_stock`, `transient_resource_capacity`,
`transient_supplier_capacity`) as association lists with Python-dict update
semantics (first occurrence wins, insertion order preserved).  Input rows carry
the already-normalized, already-coerced numeric values (the pandas
`to_numeric`/default plumbing is out of scope per the spec, §1); recursion uses
explicit fuel and returns `none` when the fuel is exhausted, so every theorem
about a completed run is conditioned on the run having returned `some`.
-/

namespace MrpSolver

/-- First-occurrence association-list lookup (Python `dict.get`). -/
def getA {α β : Type} [BEq α] (k : α) : List (α × β) → Option β
  | [] => none
  | (k', v) :: rest => if k' == k then some v else getA k rest

/-- Update the value at the first occurrence of `k`; no-op when `k` is absent
(the source only performs `dict[k] -= …` on keys it has already checked). -/
def updA {α β : Type} [BEq α] (k : α) (f : β → β) : List (α × β) → List (α × β)
  | [] => []
  | (k', v) :: rest => if k' == k then (k', f v) :: rest else (k', v) :: updA k f rest

/-- Insert-or-overwrite at key `k` (Python `dict[k] = v`). -/
def setA {α β : Type} [BEq α] (k : α) (v : β) : List (α × β) → List (α × β)
  | [] => [(k, v)]
  | (k', v') :: rest => if k' == k then (k, v) :: rest else (k', v') :: setA k v rest

/-- Insert only when the key is absent (the `if key not in dict` init pattern). -/
def insNewA {α β : Type} [BEq α] (k : α) (v : β) (l : List (α × β)) : List (α × β) :=
  if (getA k l).isSome then l else l ++ [(k, v)]

/-- Python `int(…)` on a rational: truncation toward zero. -/
def ratTrunc (q : ℚ) : ℤ := if q < 0 then -((-q).floor) else q.floor

/-- Naive character-list substring test, used for the `'make' in mb_raw` check. -/
def chPrefixOf : List Char → List Char → Bool
  | [], _ => true
  | _ :: _, [] => false
  | a :: as, b :: bs => a == b && chPrefixOf as bs

def chContains (pat : List Char) : List Char → Bool
  | [] => pat.isEmpty
  | b :: bs => chPrefixOf pat (b :: bs) || chContains pat bs

def strContainsSub (s pat : String) : Bool := chContains pat.data s.data

def strMake : String := "make"
def strBoth : String := "both"
def strInternal : String := "Internal"
def strUnknown : String := "Unknown"
def strUnderscore : String := "_"

/-! ## Input relations (post-normalization, §6) -/

/-- Item-master row: `make_buy` raw policy string, make lead time in
seconds-per-unit (`leadtimemakeseconds`/`leadtimemake` after coercion),
buy lead time in days (`leadtimebuy`, default 7 pre-applied). -/
structure ItemRow where
  itemid : String
  makebuy : String
  leadtimeMakeSec : ℚ
  leadtimeBuy : ℚ
deriving DecidableEq

structure DemandRow where
  itemid : String
  qty : ℚ
  due : ℤ
  priority : ℚ
deriving DecidableEq

structure BomRow where
  parentid : String
  childid : String
  qtyPer : ℚ
deriving DecidableEq

structure RoutingRow where
  item : String
  cycleTime : ℚ
deriving DecidableEq

/-- `resource_routing` row; `dailycapacity`/`noofmachines` are read from this
relation when the per-date resource ledger is initialized. -/
structure ResRow where
  item : String
  resourceid : String
  capacityConsumedPer : ℚ
  dailyCapacity : ℚ
  noOfMachines : ℚ
deriving DecidableEq

/-- Supplier-master row.  `lotSize` and `lotIncrement` are columns present in
the input relation; whether the engine reads them is exactly what claims C1/C2
are about. -/
structure SupRow where
  itemid : String
  supplierid : String
  suppliername : String
  sharePercent : ℚ
  leadtimeDays : ℚ
  capPerDay : ℚ
  lotSize : ℚ
  lotIncrement : ℚ
deriving DecidableEq

/-- Supplies row: `fg`, `wip`, `supplier` stock and the summed `rework*` columns. -/
structure SupplyRow where
  itemid : String
  fg : ℚ
  wip : ℚ
  supplier : ℚ
  rework : ℚ
deriving DecidableEq

structure Inputs where
  items : List ItemRow
  demand : List DemandRow
  bom : List BomRow
  routing : List RoutingRow
  resRouting : List ResRow
  supplierMaster : List SupRow
  supplies : List SupplyRow
  horizon : ℕ
  startDate : ℤ
  isConstrained : Bool
  buildAhead : Bool
deriving DecidableEq

/-! ## MRP bucket and solver state -/

structure Bucket where
  startingStock : ℚ
  inflowSupplier : ℚ
  inflowWip : ℚ
  inflowOnhand : ℚ
  inflowFresh : ℚ
  outflowDep : ℚ
  outflowDirect : ℚ
  endingStock : ℚ
  shortage : ℚ
deriving DecidableEq

def bucket0 : Bucket :=
  { startingStock := 0, inflowSupplier := 0, inflowWip := 0, inflowOnhand := 0,
    inflowFresh := 0, outflowDep := 0, outflowDirect := 0, endingStock := 0, shortage := 0 }

inductive PlanType where
  | production
  | purchase
deriving DecidableEq

structure PlannedOrder where
  item : String
  qty : ℚ
  ptype : PlanType
  start : ℤ
  finish : ℤ
  res : Option String
  ltDays : ℤ
  supplier : String
deriving DecidableEq

inductive InfReason where
  | missingMaster
  | leadTimeViolation
  | capacityBottleneck
  | supplierShortage
deriving DecidableEq

inductive TraceStep where
  | stock (item : String) (qty : ℚ)
  | infeasible (reason : InfReason) (item : String) (res : Option String)
  | production (item : String) (qty : ℚ)
  | purchase (item : String) (qty : ℚ)
deriving DecidableEq

structure SState where
  stock : List (String × ℚ)
  resCap : List (String × List (ℤ × ℚ))
  supCap : List (String × List (ℤ × ℚ))
  mrp : List (String × List (ℤ × Bucket))
  orders : List PlannedOrder
  steps : List TraceStep
deriving DecidableEq

/-! ## Initialization (`run_solver` steps 2–3) -/

/-- The extended capacity horizon: `dates_list`, offsets `0 … horizon+60`. -/
def extDates (inp : Inputs) : List ℤ :=
  (List.range (inp.horizon + 61)).map (fun i => inp.startDate + Int.ofNat i)

/-- The MRP bucket dates: `dates_list[:horizon+1]`, offsets `0 … horizon`. -/
def mrpDates (inp : Inputs) : List ℤ :=
  (List.range (inp.horizon + 1)).map (fun i => inp.startDate + Int.ofNat i)

def initOnhand (inp : Inputs) : List (String × ℚ) :=
  inp.supplies.foldl (fun m r => setA r.itemid (r.fg + r.rework) m) []

def initWip (inp : Inputs) : List (String × ℚ) :=
  inp.supplies.foldl (fun m r => setA r.itemid r.wip m) []

def initSupStock (inp : Inputs) : List (String × ℚ) :=
  inp.supplies.foldl (fun m r => setA r.itemid r.supplier m) []

def initStock (inp : Inputs) : List (String × ℚ) :=
  inp.supplies.foldl (fun m r => setA r.itemid (r.fg + r.rework + r.wip + r.supplier) m) []

def initResCap (inp : Inputs) : List (String × List (ℤ × ℚ)) :=
  inp.resRouting.foldl
    (fun m r =>
      insNewA r.resourceid ((extDates inp).map (fun d => (d, r.dailyCapacity * r.noOfMachines))) m)
    []

def capKeyOf (sId itemId : String) : String := sId ++ strUnderscore ++ itemId

def initSupCap (inp : Inputs) : List (String × List (ℤ × ℚ)) :=
  inp.supplierMaster.foldl
    (fun m r =>
      insNewA (capKeyOf r.supplierid r.itemid) ((extDates inp).map (fun d => (d, r.capPerDay))) m)
    []

def initState (inp : Inputs) : SState :=
  { stock := initStock inp, resCap := initResCap inp, supCap := initSupCap inp,
    mrp := [], orders := [], steps := [] }

/-! ## State helpers -/

def stockVal (s : SState) (itemId : String) : ℚ := (getA itemId s.stock).getD 0

def availRes (s : SState) (resId : String) (d : ℤ) : ℚ :=
  ((getA resId s.resCap).bind (getA d)).getD 0

def lookupRes (s : SState) (resId : String) (d : ℤ) : Option ℚ :=
  (getA resId s.resCap).bind (getA d)

def lookupSup (s : SState) (capKey : String) (d : ℤ) : Option ℚ :=
  (getA capKey s.supCap).bind (getA d)

def lookupBucket (s : SState) (itemId : String) (d : ℤ) : Option Bucket :=
  (getA itemId s.mrp).bind (getA d)

def decRes (s : SState) (resId : String) (d : ℤ) (q : ℚ) : SState :=
  { s with resCap := updA resId (updA d (fun v => v - q)) s.resCap }

def decSup (s : SState) (capKey : String) (d : ℤ) (q : ℚ) : SState :=
  { s with supCap := updA capKey (updA d (fun v => v - q)) s.supCap }

def modifyBucket (itemId : String) (d : ℤ) (f : Bucket → Bucket) (s : SState) : SState :=
  { s with mrp := updA itemId (updA d f) s.mrp }

def addFresh (itemId : String) (d : ℤ) (q : ℚ) (s : SState) : SState :=
  modifyBucket itemId d (fun b => { b with inflowFresh := b.inflowFresh + q }) s

def addShortage (itemId : String) (d : ℤ) (q : ℚ) (s : SState) : SState :=
  modifyBucket itemId d (fun b => { b with shortage := b.shortage + q }) s

def addOutDirect (itemId : String) (d : ℤ) (q : ℚ) (s : SState) : SState :=
  modifyBucket itemId d (fun b => { b with outflowDirect := b.outflowDirect + q }) s

def addOutDep (itemId : String) (d : ℤ) (q : ℚ) (s : SState) : SState :=
  modifyBucket itemId d (fun b => { b with outflowDep := b.outflowDep + q }) s

def pushOrder (o : PlannedOrder) (s : SState) : SState := { s with orders := s.orders ++ [o] }

def pushStep (st : TraceStep) (s : SState) : SState := { s with steps := s.steps ++ [st] }

/-- The seeded `t = 0` bucket of `init_mrp` (initial inflows on the first date). -/
def seedBucket (inp : Inputs) (itemId : String) : Bucket :=
  { bucket0 with
      inflowOnhand := (getA itemId (initOnhand inp)).getD 0,
      inflowWip := (getA itemId (initWip inp)).getD 0,
      inflowSupplier := (getA itemId (initSupStock inp)).getD 0 }

def initBuckets (inp : Inputs) (itemId : String) : List (ℤ × Bucket) :=
  (mrpDates inp).map (fun d => (d, if d == inp.startDate then seedBucket inp itemId else bucket0))

/-- `init_mrp`: create the item's bucket row (insertion order) if absent. -/
def initMrp (inp : Inputs) (itemId : String) (s : SState) : SState :=
  if (getA itemId s.mrp).isSome then s
  else { s with mrp := s.mrp ++ [(itemId, initBuckets inp itemId)] }

/-- Resolver step 1: `init_mrp` plus outflow recording (direct vs dependent),
which happens before the master-data lookup and only when the due date has a
bucket. -/
def recordOutflow (inp : Inputs) (itemId : String) (due : ℤ) (isDirect : Bool) (q : ℚ)
    (s : SState) : SState :=
  let s1 := initMrp inp itemId s
  if isDirect then addOutDirect itemId due q s1 else addOutDep itemId due q s1

/-- Resolver step A: stock consumption.  Returns the new state and the unmet
remainder. -/
def consumeStock (itemId : String) (q : ℚ) (s : SState) : SState × ℚ :=
  let stock := stockVal s itemId
  if 0 < stock then
    let consumed := min q stock
    (pushStep (TraceStep.stock itemId consumed)
      { s with stock := updA itemId (fun v => v - consumed) s.stock }, q - consumed)
  else (s, q)

def findItem (inp : Inputs) (itemId : String) : Option ItemRow :=
  inp.items.find? (fun r => r.itemid == itemId)

def findResRouting (inp : Inputs) (itemId : String) : Option ResRow :=
  inp.resRouting.find? (fun r => r.item == itemId)

def bomChildren (inp : Inputs) (itemId : String) : List BomRow :=
  inp.bom.filter (fun r => r.parentid == itemId)

def isMakeRow (row : ItemRow) : Bool :=
  strContainsSub row.makebuy.toLower strMake || strContainsSub row.makebuy.toLower strBoth

/-- Make lead time source: routing-master cycle time when present and nonzero,
else the item-master seconds value. -/
def baseSecOf (inp : Inputs) (itemId : String) (row : ItemRow) : ℚ :=
  let b := ((inp.routing.find? (fun r => r.item == itemId)).map RoutingRow.cycleTime).getD 0
  if b == 0 then row.leadtimeMakeSec else b

def ltDaysOf (u baseSec : ℚ) : ℤ := max 0 (ratTrunc (u * baseSec / 86400))

def neededHours (u cons : ℚ) : ℚ := if 1 ≤ cons then u * cons / 3600 else u * cons

/-- The capacity lookback scan: `lb` is the current offset, the second argument
the number of iterations left (`max_lookback + 1` at the top call).  Breaks when
the candidate date precedes the simulation start, commits at the first date
whose available hours cover the need. -/
def scanLb (startDate : ℤ) (avail : ℤ → ℚ) (needed : ℚ) (reqStart : ℤ) :
    ℕ → ℕ → Option ℤ
  | _, 0 => none
  | lb, rem + 1 =>
    let d := reqStart - (lb : ℤ)
    if d < startDate then none
    else if needed ≤ avail d then some d
    else scanLb startDate avail needed reqStart (lb + 1) rem

def maxLookback (inp : Inputs) : ℕ := if inp.buildAhead then 15 else 0

def commitDate (inp : Inputs) (s : SState) (resId : String) (needed : ℚ) (reqStart : ℤ) :
    Option ℤ :=
  scanLb inp.startDate (availRes s resId) needed reqStart 0 (maxLookback inp + 1)

/-- Make-branch capacity scheduling (resolver step 3): constrained commit /
bottleneck, or the unconstrained-production fallback. -/
def makeCapStep (inp : Inputs) (itemId : String) (due lt reqStart : ℤ) (u : ℚ)
    (s : SState) : SState × ℚ :=
  match (if inp.isConstrained then findResRouting inp itemId else none) with
  | some rr =>
    let resId := rr.resourceid
    let needed := neededHours u rr.capacityConsumedPer
    match commitDate inp s resId needed reqStart with
    | some d =>
      let s1 := decRes s resId d needed
      let s2 := pushOrder
        { item := itemId, qty := u, ptype := PlanType.production, start := d, finish := due,
          res := some resId, ltDays := lt, supplier := strInternal } s1
      let s3 := addFresh itemId due u s2
      (pushStep (TraceStep.production itemId u) s3, 0)
    | none =>
      let s1 := pushStep (TraceStep.infeasible InfReason.capacityBottleneck itemId (some resId)) s
      (addShortage itemId due u s1, u)
  | none =>
    let s1 := pushOrder
      { item := itemId, qty := u, ptype := PlanType.production, start := reqStart, finish := due,
        res := none, ltDays := lt, supplier := strInternal } s
    let s2 := addFresh itemId due u s1
    (pushStep (TraceStep.production itemId u) s2, 0)

/-- One inner-lookback allocation pass against one supplier (buy branch,
`for lb in range(lookback)`).  `dates` is `[due, due-1, …]`; dates absent from
the supplier ledger are skipped (`continue`) without the break check.  Returns
the state and the remaining unmet quantity. -/
def allocLoop (inp : Inputs) (itemId capKey sName : String) (lt : ℤ) (target : ℚ) :
    List ℤ → SState → ℚ → ℚ → SState × ℚ
  | [], s, unmet, _ => (s, unmet)
  | d :: rest, s, unmet, allocated =>
    match lookupSup s capKey d with
    | none => allocLoop inp itemId capKey sName lt target rest s unmet allocated
    | some avail =>
      let canTake := min (target - allocated) (min unmet avail)
      if 0 < canTake then
        let s1 := decSup s capKey d canTake
        let s2 := pushOrder
          { item := itemId, qty := canTake, ptype := PlanType.purchase, start := d - lt,
            finish := d, res := none, ltDays := lt, supplier := sName } s1
        let s3 := addFresh itemId d canTake s2
        if target ≤ allocated + canTake ∨ unmet - canTake ≤ 0 then (s3, unmet - canTake)
        else allocLoop inp itemId capKey sName lt target rest s3 (unmet - canTake)
          (allocated + canTake)
      else
        if target ≤ allocated ∨ unmet ≤ 0 then (s, unmet)
        else allocLoop inp itemId capKey sName lt target rest s unmet allocated

/-- The per-supplier lookback dates `due - lb` for `lb ∈ range(lookback)`. -/
def supDates (inp : Inputs) (due : ℤ) : List ℤ :=
  (List.range (if inp.buildAhead then 15 else 1)).map (fun lb => due - Int.ofNat lb)

/-- The allocation-quantity law for the orders a single `allocLoop` call emits,
with the running unmet `u` and allocated `a` threaded through the emissions:
each successive order's quantity is exactly
`min(target − allocated, unmet, avail)` for the current running values, where
`avail` is the supplier-ledger capacity at the order's finish date (the loop
visits each lookback date at most once, so the ledger value read at emission
time is the one in the state the loop started from), and each emission
decreases unmet and increases allocated by exactly that quantity — never a
`lot_size`/`lot_increment` rounding of it. -/
def allocEmitsLaw (capKey sName itemId : String) (lt : ℤ) (target : ℚ) (s : SState)
    (dates : List ℤ) : ℚ → ℚ → List PlannedOrder → Prop
  | _, _, [] => True
  | u, a, o :: rest =>
    (∃ avail : ℚ, lookupSup s capKey o.finish = some avail ∧
      o.qty = min (target - a) (min u avail)) ∧
    0 < o.qty ∧ o.item = itemId ∧ o.ptype = PlanType.purchase ∧ o.finish ∈ dates ∧
    o.start = o.finish - lt ∧ o.ltDays = lt ∧ o.supplier = sName ∧
    allocEmitsLaw capKey sName itemId lt target s dates (u - o.qty) (a + o.qty) rest

/-- Outer supplier loop (sorted by descending share), breaking once unmet is
exhausted.  `original` is the unmet quantity captured before the loop. -/
def supLoop (inp : Inputs) (itemId : String) (due : ℤ) (original : ℚ) :
    List SupRow → SState → ℚ → SState × ℚ
  | [], s, unmet => (s, unmet)
  | r :: rest, s, unmet =>
    if unmet ≤ 0 then (s, unmet)
    else
      let capKey := capKeyOf r.supplierid r.itemid
      let lt := ratTrunc r.leadtimeDays
      let target := original * r.sharePercent
      let p := allocLoop inp itemId capKey r.suppliername lt target (supDates inp due) s unmet 0
      supLoop inp itemId due original rest p.1 p.2

def insSupDesc (r : SupRow) : List SupRow → List SupRow
  | [] => [r]
  | x :: xs => if x.sharePercent ≤ r.sharePercent then r :: x :: xs else x :: insSupDesc r xs

def sortSupsDesc (l : List SupRow) : List SupRow := l.foldr insSupDesc []

/-- Buy branch (resolver step 4): default purchase when no supplier rows exist,
else the share-sorted supplier loop followed by the supplier-shortage record. -/
def buyStep (inp : Inputs) (itemId : String) (row : ItemRow) (due : ℤ) (u : ℚ)
    (s : SState) : SState × ℚ :=
  let sups := inp.supplierMaster.filter (fun r => r.itemid == itemId)
  if sups.isEmpty then
    let lt := ratTrunc row.leadtimeBuy
    let s1 := pushOrder
      { item := itemId, qty := u, ptype := PlanType.purchase, start := due - lt, finish := due,
        res := none, ltDays := lt, supplier := strUnknown } s
    let s2 := addFresh itemId due u s1
    (pushStep (TraceStep.purchase itemId u) s2, 0)
  else
    let p := supLoop inp itemId due u (sortSupsDesc sups) s u
    if 0 < p.2 then
      let s1 := pushStep (TraceStep.infeasible InfReason.supplierShortage itemId none) p.1
      (addShortage itemId due p.2 s1, p.2)
    else p

/-- One unfolding of the resolver; `recur` is the resolver at the next depth. -/
def resolveStep (inp : Inputs)
    (recur : String → ℚ → ℤ → Bool → SState → Option (SState × ℚ))
    (itemId : String) (qty : ℚ) (due : ℤ) (isDirect : Bool) (s : SState) :
    Option (SState × ℚ) :=
  let s1 := recordOutflow inp itemId due isDirect qty s
  match findItem inp itemId with
  | none => some (pushStep (TraceStep.infeasible InfReason.missingMaster itemId none) s1, qty)
  | some row =>
    let p := consumeStock itemId qty s1
    if p.2 ≤ 0 then some (p.1, 0)
    else if isMakeRow row then
      let lt := ltDaysOf p.2 (baseSecOf inp itemId row)
      let reqStart := due - lt
      let s3 :=
        if reqStart < inp.startDate then
          pushStep (TraceStep.infeasible InfReason.leadTimeViolation itemId none) p.1
        else p.1
      match (bomChildren inp itemId).foldlM
          (fun st c => Option.map Prod.fst (recur c.childid (p.2 * c.qtyPer) reqStart false st))
          s3 with
      | none => none
      | some s4 => some (makeCapStep inp itemId due lt reqStart p.2 s4)
    else some (buyStep inp itemId row due p.2 p.1)

/-- The recursive resolver, with fuel (`none` = fuel exhausted; the source
recurses without a bound over the acyclic BOM). -/
def resolve (inp : Inputs) : ℕ → String → ℚ → ℤ → Bool → SState → Option (SState × ℚ)
  | 0, _, _, _, _, _ => none
  | Nat.succ fuel, itemId, qty, due, isDirect, s =>
    resolveStep inp (fun i2 q2 d2 dir2 s2 => resolve inp fuel i2 q2 d2 dir2 s2)
      itemId qty due isDirect s

/-! ## Demand driver and inventory roll (`run_solver` steps 4–6) -/

def demLeb (a b : DemandRow) : Bool :=
  a.priority < b.priority || (a.priority == b.priority && a.due ≤ b.due)

def insDem (r : DemandRow) : List DemandRow → List DemandRow
  | [] => [r]
  | x :: xs => if demLeb r x then r :: x :: xs else x :: insDem r xs

def sortDemand (l : List DemandRow) : List DemandRow := l.foldr insDem []

def runDemands (inp : Inputs) (fuel : ℕ) : Option SState :=
  (sortDemand inp.demand).foldlM
    (fun s dr => Option.map Prod.fst (resolve inp fuel dr.itemid dr.qty dr.due true s))
    (initState inp)

/-- The per-bucket net of the inventory roll: starting stock plus the canonical
inflows (`inflow_fresh + inflow_onhand` only) minus both outflows. -/
def rollNet (run : ℚ) (b : Bucket) : ℚ :=
  run + (b.inflowFresh + b.inflowOnhand) - (b.outflowDep + b.outflowDirect)

/-- One bucket of the inventory roll: starting stock, clamped ending stock, and
the shortage back-fill when the net is negative and no shortage was recorded. -/
def rolledBucket (run : ℚ) (b : Bucket) : Bucket :=
  { b with
    startingStock := run,
    endingStock := max 0 (rollNet run b),
    shortage := if rollNet run b < 0 ∧ b.shortage = 0 then |rollNet run b| else b.shortage }

/-- The inventory roll over one item's buckets, carrying the running stock. -/
def rollBuckets (run : ℚ) : List (ℤ × Bucket) → List (ℤ × Bucket)
  | [] => []
  | (d, b) :: rest =>
    (d, rolledBucket run b) :: rollBuckets (rolledBucket run b).endingStock rest

/-- The running stock entering bucket `k` of the roll (`0` before the first
bucket, then the previous bucket's clamped ending stock). -/
def rollRunAt (r : ℚ) : List (ℤ × Bucket) → ℕ → ℚ
  | _, 0 => r
  | [], _ + 1 => r
  | (_, b) :: rest, k + 1 => rollRunAt (rolledBucket r b).endingStock rest k

def insDate (p : ℤ × Bucket) : List (ℤ × Bucket) → List (ℤ × Bucket)
  | [] => [p]
  | x :: xs => if p.1 ≤ x.1 then p :: x :: xs else x :: insDate p xs

def sortByDate (l : List (ℤ × Bucket)) : List (ℤ × Bucket) := l.foldr insDate []

/-- `sorted(mrp_plan[item].keys())` walk. -/
def rollItem (l : List (ℤ × Bucket)) : List (ℤ × Bucket) := rollBuckets 0 (sortByDate l)

structure SolveResult where
  orders : List PlannedOrder
  mrp : List (String × List (ℤ × Bucket))
  totalPlanned : ℕ
deriving DecidableEq

def runSolver (inp : Inputs) (fuel : ℕ) : Option SolveResult :=
  (runDemands inp fuel).map fun s =>
    { orders := s.orders,
      mrp := s.mrp.map (fun p => (p.1, rollItem p.2)),
      totalPlanned := s.orders.length }

/-! ## Spec-side comparison definitions -/

/-- Modelled from the spec: the lot-sizing law of §4.4 (buy branch, step 5),
which the source is claimed to apply to `base_req`.  `⌈⌉` is the rational
ceiling. -/
def specOrderQty (baseReq lotSize lotInc : ℚ) : ℚ :=
  if lotSize ≤ 0 then baseReq
  else if baseReq ≤ lotSize then lotSize
  else if 0 < lotInc then lotSize + ((⌈(baseReq - lotSize) / lotInc⌉ : ℤ) : ℚ) * lotInc
  else baseReq

/-- Modelled from the spec: §4.4 buy-branch step 7 surplus,
`final_qty − satisfied_now` with `final_qty = min(order_qty, capacity)` and
`satisfied_now = min(final_qty, unmet)`, for a first allocation
(`sup_allocated = 0`, `base_req = min(target, unmet) = unmet` when
`share = 1`). -/
def specSurplus (baseReq lotSize lotInc cap : ℚ) : ℚ :=
  let fq := min (specOrderQty baseReq lotSize lotInc) cap
  fq - min fq baseReq

/-! ## Predicates used by the claims -/

/-- Total `outflow_direct` over an MRP plan. -/
def totalOutD (m : List (String × List (ℤ × Bucket))) : ℚ :=
  (m.map (fun p => ((p.2.map (fun q => q.2.outflowDirect)).sum))).sum

/-- The sum the spec's claim asserts for `outflow_direct`: demand quantities of
lines whose item is present in the Item Master. -/
def claimDirectTotal (inp : Inputs) : ℚ :=
  ((inp.demand.filter (fun dr => (findItem inp dr.itemid).isSome)).map DemandRow.qty).sum

/-- The sum the code actually produces: demand quantities of lines whose due
date lies in the MRP bucket horizon `[start, start + horizon]`. -/
def horizonDirectTotal (inp : Inputs) : ℚ :=
  (inp.demand.map (fun dr =>
    if inp.startDate ≤ dr.due ∧ dr.due ≤ inp.startDate + (inp.horizon : ℤ) then dr.qty else 0)).sum

/-- A rational is representable with 4 decimal places. -/
def is4dp (q : ℚ) : Prop := (q * 10000).den = 1

/-- All ledger values of a state are non-negative. -/
def nonnegLedger (l : List (String × List (ℤ × ℚ))) : Prop :=
  ∀ p ∈ l, ∀ e ∈ p.2, 0 ≤ e.2

def nonnegState (s : SState) : Prop :=
  (∀ p ∈ s.stock, 0 ≤ p.2) ∧ nonnegLedger s.resCap ∧ nonnegLedger s.supCap

/-- The lead-time law the orders actually satisfy: purchases are exact, while
production orders may start earlier than `finish − lt_days` (capacity
lookback), never later. -/
def orderLtLaw (o : PlannedOrder) : Prop :=
  (o.ptype = PlanType.purchase → o.finish - o.start = o.ltDays) ∧
  (o.ptype = PlanType.production → o.ltDays ≤ o.finish - o.start)

/-- Every MRP row carries exactly the canonical bucket dates. -/
def mrpWF (inp : Inputs) (s : SState) : Prop :=
  ∀ p ∈ s.mrp, p.2.map Prod.fst = mrpDates inp

/-! ## Concrete inputs for the counterexamples and witnesses -/

def rowXbuy : ItemRow := { itemid := "X", makebuy := "buy", leadtimeMakeSec := 0, leadtimeBuy := 7 }

def demX55 : DemandRow := { itemid := "X", qty := 55, due := 3, priority := 1 }

/-- Spec §8 scenario B: share 1, lot size 50, lot increment 20, capacity
1000/day, lead time 3. -/
def supSlot : SupRow :=
  { itemid := "X", supplierid := "S", suppliername := "S", sharePercent := 1,
    leadtimeDays := 3, capPerDay := 1000, lotSize := 50, lotIncrement := 20 }

def inpLot : Inputs :=
  { items := [rowXbuy], demand := [demX55], bom := [], routing := [], resRouting := [],
    supplierMaster := [supSlot], supplies := [], horizon := 5, startDate := 0,
    isConstrained := false, buildAhead := false }

def rowPmake : ItemRow :=
  { itemid := "P", makebuy := "make", leadtimeMakeSec := 0, leadtimeBuy := 7 }

def demP1 : DemandRow := { itemid := "P", qty := 5, due := 5, priority := 1 }

def demP2 : DemandRow := { itemid := "P", qty := 5, due := 5, priority := 2 }

def resRowP : ResRow :=
  { item := "P", resourceid := "R", capacityConsumedPer := 3600, dailyCapacity := 8,
    noOfMachines := 1 }

/-- Two equal constrained make demands: the second finds capacity only one day
earlier (lookback), producing an order with `finish − start = lt_days + 1`. -/
def inpLookback : Inputs :=
  { items := [rowPmake], demand := [demP1, demP2], bom := [], routing := [],
    resRouting := [resRowP], supplierMaster := [], supplies := [], horizon := 6, startDate := 0,
    isConstrained := true, buildAhead := true }

def demZ : DemandRow := { itemid := "Z", qty := 5, due := 0, priority := 1 }

/-- A demand for an item that is absent from the Item Master, due inside the
horizon. -/
def inpUnknownItem : Inputs :=
  { items := [], demand := [demZ], bom := [], routing := [], resRouting := [],
    supplierMaster := [], supplies := [], horizon := 3, startDate := 0,
    isConstrained := false, buildAhead := false }

def demTiny : DemandRow := { itemid := "X", qty := 1/20000, due := 0, priority := 1 }

def rowXbuy5 : ItemRow := { itemid := "X", makebuy := "buy", leadtimeMakeSec := 0, leadtimeBuy := 5 }

/-- A demand whose quantity has more than 4 decimal places. -/
def inpTinyQty : Inputs :=
  { items := [rowXbuy5], demand := [demTiny], bom := [], routing := [], resRouting := [],
    supplierMaster := [], supplies := [], horizon := 2, startDate := 0,
    isConstrained := false, buildAhead := false }

def demFourDp : DemandRow := { itemid := "X", qty := 3/10000, due := 2, priority := 1 }

def supFourDp : SupRow :=
  { itemid := "X", supplierid := "S", suppliername := "S", sharePercent := 7/10000,
    leadtimeDays := 1, capPerDay := 1000, lotSize := 0, lotIncrement := 0 }

/-- All numeric inputs are 4-dp rationals, yet the emitted purchase quantity
`(3/10⁴)·(7/10⁴) = 21/10⁸` is not. -/
def inpShareFrac : Inputs :=
  { items := [rowXbuy], demand := [demFourDp], bom := [], routing := [], resRouting := [],
    supplierMaster := [supFourDp], supplies := [], horizon := 3, startDate := 0,
    isConstrained := false, buildAhead := false }

def rowCbuy : ItemRow := { itemid := "C", makebuy := "buy", leadtimeMakeSec := 0, leadtimeBuy := 2 }

def demP4 : DemandRow := { itemid := "P", qty := 5, due := 4, priority := 1 }

def bomPC : BomRow := { parentid := "P", childid := "C", qtyPer := 2 }

/-- A make item with one BOM child, used to exercise the make branch. -/
def inpBom : Inputs :=
  { items := [rowPmake, rowCbuy], demand := [demP4], bom := [bomPC], routing := [],
    resRouting := [], supplierMaster := [], supplies := [], horizon := 5, startDate := 0,
    isConstrained := true, buildAhead := true }

/-- A small bucket list exercising the roll: day 1 has a negative net and no
recorded shortage. -/
def rollDemo : List (ℤ × Bucket) :=
  [(0, { bucket0 with inflowOnhand := 5 }), (1, { bucket0 with outflowDirect := 8 })]

/-- The BOM-explosion fold of the make branch for the concrete `inpBom` demand
(`P`, qty 5, due 4) at recursion fuel 1. -/
def c7Fold : Option SState :=
  List.foldlM (fun st c => Option.map Prod.fst (resolve inpBom 1 c.childid
      ((consumeStock "P" 5 (recordOutflow inpBom "P" 4 true 5 (initState inpBom))).2 * c.qtyPer)
      (4 - ltDaysOf (consumeStock "P" 5 (recordOutflow inpBom "P" 4 true 5 (initState inpBom))).2
        (baseSecOf inpBom "P" rowPmake)) false st))
    (if 4 - ltDaysOf (consumeStock "P" 5 (recordOutflow inpBom "P" 4 true 5 (initState inpBom))).2
          (baseSecOf inpBom "P" rowPmake) < inpBom.startDate then
      pushStep (TraceStep.infeasible InfReason.leadTimeViolation "P" none)
        (consumeStock "P" 5 (recordOutflow inpBom "P" 4 true 5 (initState inpBom))).1
    else (consumeStock "P" 5 (recordOutflow inpBom "P" 4 true 5 (initState inpBom))).1)
    (bomChildren inpBom "P")

/-! ## Association-list lemmas -/

theorem mem_updA {α β : Type} [BEq α] [LawfulBEq α] {k : α} {f : β → β} {l : List (α × β)} {p : α × β}
    (hp : p ∈ updA k f l) : p ∈ l ∨ ∃ v, getA k l = some v ∧ p = (k, f v) := by
  induction l with
  | nil => simp [updA] at hp
  | cons hd tl ih =>
    obtain ⟨k', v⟩ := hd
    by_cases hk : (k' == k) = true
    · simp only [updA, if_pos hk] at hp
      rcases List.mem_cons.mp hp with h | h
      · exact Or.inr ⟨v, by simp only [getA, if_pos hk], by rw [h, eq_of_beq hk]⟩
      · exact Or.inl (List.mem_cons_of_mem _ h)
    · simp only [updA, if_neg hk] at hp
      rcases List.mem_cons.mp hp with h | h
      · exact Or.inl (h ▸ List.mem_cons_self _ _)
      · rcases ih h with h2 | ⟨v2, hv2, hp2⟩
        · exact Or.inl (List.mem_cons_of_mem _ h2)
        · exact Or.inr ⟨v2, by simp only [getA, if_neg hk]; exact hv2, hp2⟩

theorem getA_updA_self {α β : Type} [BEq α] [LawfulBEq α] (k : α) (f : β → β)
    (l : List (α × β)) : getA k (updA k f l) = (getA k l).map f := by
  induction l with
  | nil => simp [updA, getA]
  | cons hd tl ih =>
    obtain ⟨k', v⟩ := hd
    by_cases hk : (k' == k) = true
    · simp [updA, getA, hk]
    · simp [updA, getA, hk, ih]

theorem getA_updA_ne {α β : Type} [BEq α] [LawfulBEq α] {k k2 : α} (f : β → β)
    (l : List (α × β)) (hne : k2 ≠ k) : getA k2 (updA k f l) = getA k2 l := by
  induction l with
  | nil => simp [updA, getA]
  | cons hd tl ih =>
    obtain ⟨k', v⟩ := hd
    by_cases hk : (k' == k) = true
    · have : (k' == k2) = false := by
        rw [eq_of_beq hk]; exact beq_false_of_ne (fun h => hne h.symm)
      simp [updA, getA, hk, this]
    · by_cases hk2 : (k' == k2) = true
      · simp [updA, getA, hk, hk2]
      · simp [updA, getA, hk, hk2, ih]

theorem getA_updA_isSome {α β : Type} [BEq α] [LawfulBEq α] (k k2 : α) (f : β → β)
    (l : List (α × β)) : (getA k2 (updA k f l)).isSome = (getA k2 l).isSome := by
  by_cases h : k2 = k
  · subst h; rw [getA_updA_self]; cases getA k2 l <;> rfl
  · rw [getA_updA_ne f l h]

theorem getA_append {α β : Type} [BEq α] (k : α) (l l2 : List (α × β)) :
    getA k (l ++ l2) = ((getA k l).orElse (fun _ => getA k l2)) := by
  induction l with
  | nil => simp [getA]
  | cons hd tl ih =>
    obtain ⟨k', v⟩ := hd
    by_cases hk : (k' == k) = true
    · simp [getA, hk]
    · simp [getA, hk, ih]

theorem mem_setA {α β : Type} [BEq α] {k : α} {v : β} {l : List (α × β)} {p : α × β}
    (hp : p ∈ setA k v l) : p ∈ l ∨ p = (k, v) := by
  induction l with
  | nil => simp [setA] at hp; exact Or.inr hp
  | cons hd tl ih =>
    obtain ⟨k', v'⟩ := hd
    by_cases hk : (k' == k) = true
    · simp only [setA, hk, if_pos] at hp
      rcases List.mem_cons.mp hp with h | h
      · exact Or.inr h
      · exact Or.inl (List.mem_cons_of_mem _ h)
    · simp only [setA, hk, if_neg, Bool.false_eq_true, not_false_iff] at hp
      rcases List.mem_cons.mp hp with h | h
      · exact Or.inl (h ▸ List.mem_cons_self _ _)
      · rcases ih h with h2 | h2
        · exact Or.inl (List.mem_cons_of_mem _ h2)
        · exact Or.inr h2

theorem mem_insNewA {α β : Type} [BEq α] {k : α} {v : β} {l : List (α × β)} {p : α × β}
    (hp : p ∈ insNewA k v l) : p ∈ l ∨ p = (k, v) := by
  unfold insNewA at hp
  split at hp
  · exact Or.inl hp
  · rcases List.mem_append.mp hp with h | h
    · exact Or.inl h
    · exact Or.inr (List.mem_singleton.mp h)

/-! ## State-component lemmas for the solver helpers -/

@[simp] theorem pushOrder_stock (o : PlannedOrder) (s : SState) :
    (pushOrder o s).stock = s.stock := rfl
@[simp] theorem pushOrder_resCap (o : PlannedOrder) (s : SState) :
    (pushOrder o s).resCap = s.resCap := rfl
@[simp] theorem pushOrder_supCap (o : PlannedOrder) (s : SState) :
    (pushOrder o s).supCap = s.supCap := rfl
@[simp] theorem pushOrder_mrp (o : PlannedOrder) (s : SState) :
    (pushOrder o s).mrp = s.mrp := rfl
@[simp] theorem pushOrder_orders (o : PlannedOrder) (s : SState) :
    (pushOrder o s).orders = s.orders ++ [o] := rfl

@[simp] theorem pushStep_stock (st : TraceStep) (s : SState) :
    (pushStep st s).stock = s.stock := rfl
@[simp] theorem pushStep_resCap (st : TraceStep) (s : SState) :
    (pushStep st s).resCap = s.resCap := rfl
@[simp] theorem pushStep_supCap (st : TraceStep) (s : SState) :
    (pushStep st s).supCap = s.supCap := rfl
@[simp] theorem pushStep_mrp (st : TraceStep) (s : SState) :
    (pushStep st s).mrp = s.mrp := rfl
@[simp] theorem pushStep_orders (st : TraceStep) (s : SState) :
    (pushStep st s).orders = s.orders := rfl

@[simp] theorem decRes_stock (s : SState) (r : String) (d : ℤ) (q : ℚ) :
    (decRes s r d q).stock = s.stock := rfl
@[simp] theorem decRes_supCap (s : SState) (r : String) (d : ℤ) (q : ℚ) :
    (decRes s r d q).supCap = s.supCap := rfl
@[simp] theorem decRes_mrp (s : SState) (r : String) (d : ℤ) (q : ℚ) :
    (decRes s r d q).mrp = s.mrp := rfl
@[simp] theorem decRes_orders (s : SState) (r : String) (d : ℤ) (q : ℚ) :
    (decRes s r d q).orders = s.orders := rfl

@[simp] theorem decSup_stock (s : SState) (k : String) (d : ℤ) (q : ℚ) :
    (decSup s k d q).stock = s.stock := rfl
@[simp] theorem decSup_resCap (s : SState) (k : String) (d : ℤ) (q : ℚ) :
    (decSup s k d q).resCap = s.resCap := rfl
@[simp] theorem decSup_mrp (s : SState) (k : String) (d : ℤ) (q : ℚ) :
    (decSup s k d q).mrp = s.mrp := rfl
@[simp] theorem decSup_orders (s : SState) (k : String) (d : ℤ) (q : ℚ) :
    (decSup s k d q).orders = s.orders := rfl

@[simp] theorem modifyBucket_stock (i : String) (d : ℤ) (f : Bucket → Bucket) (s : SState) :
    (modifyBucket i d f s).stock = s.stock := rfl
@[simp] theorem modifyBucket_resCap (i : String) (d : ℤ) (f : Bucket → Bucket) (s : SState) :
    (modifyBucket i d f s).resCap = s.resCap := rfl
@[simp] theorem modifyBucket_supCap (i : String) (d : ℤ) (f : Bucket → Bucket) (s : SState) :
    (modifyBucket i d f s).supCap = s.supCap := rfl
@[simp] theorem modifyBucket_orders (i : String) (d : ℤ) (f : Bucket → Bucket) (s : SState) :
    (modifyBucket i d f s).orders = s.orders := rfl
@[simp] theorem modifyBucket_steps (i : String) (d : ℤ) (f : Bucket → Bucket) (s : SState) :
    (modifyBucket i d f s).steps = s.steps := rfl

@[simp] theorem initMrp_stock (inp : Inputs) (i : String) (s : SState) :
    (initMrp inp i s).stock = s.stock := by unfold initMrp; split <;> rfl
@[simp] theorem initMrp_resCap (inp : Inputs) (i : String) (s : SState) :
    (initMrp inp i s).resCap = s.resCap := by unfold initMrp; split <;> rfl
@[simp] theorem initMrp_supCap (inp : Inputs) (i : String) (s : SState) :
    (initMrp inp i s).supCap = s.supCap := by unfold initMrp; split <;> rfl
@[simp] theorem initMrp_orders (inp : Inputs) (i : String) (s : SState) :
    (initMrp inp i s).orders = s.orders := by unfold initMrp; split <;> rfl
@[simp] theorem initMrp_steps (inp : Inputs) (i : String) (s : SState) :
    (initMrp inp i s).steps = s.steps := by unfold initMrp; split <;> rfl

@[simp] theorem recordOutflow_stock (inp : Inputs) (i : String) (due : ℤ) (dir : Bool) (q : ℚ)
    (s : SState) : (recordOutflow inp i due dir q s).stock = s.stock := by
  unfold recordOutflow addOutDirect addOutDep; split <;> simp
@[simp] theorem recordOutflow_resCap (inp : Inputs) (i : String) (due : ℤ) (dir : Bool) (q : ℚ)
    (s : SState) : (recordOutflow inp i due dir q s).resCap = s.resCap := by
  unfold recordOutflow addOutDirect addOutDep; split <;> simp
@[simp] theorem recordOutflow_supCap (inp : Inputs) (i : String) (due : ℤ) (dir : Bool) (q : ℚ)
    (s : SState) : (recordOutflow inp i due dir q s).supCap = s.supCap := by
  unfold recordOutflow addOutDirect addOutDep; split <;> simp
@[simp] theorem recordOutflow_orders (inp : Inputs) (i : String) (due : ℤ) (dir : Bool) (q : ℚ)
    (s : SState) : (recordOutflow inp i due dir q s).orders = s.orders := by
  unfold recordOutflow addOutDirect addOutDep; split <;> simp
@[simp] theorem recordOutflow_steps (inp : Inputs) (i : String) (due : ℤ) (dir : Bool) (q : ℚ)
    (s : SState) : (recordOutflow inp i due dir q s).steps = s.steps := by
  unfold recordOutflow addOutDirect addOutDep; split <;> simp

@[simp] theorem consumeStock_resCap (i : String) (q : ℚ) (s : SState) :
    (consumeStock i q s).1.resCap = s.resCap := by
  simp only [consumeStock]; split <;> rfl
@[simp] theorem consumeStock_supCap (i : String) (q : ℚ) (s : SState) :
    (consumeStock i q s).1.supCap = s.supCap := by
  simp only [consumeStock]; split <;> rfl
@[simp] theorem consumeStock_mrp (i : String) (q : ℚ) (s : SState) :
    (consumeStock i q s).1.mrp = s.mrp := by
  simp only [consumeStock]; split <;> rfl
@[simp] theorem consumeStock_orders (i : String) (q : ℚ) (s : SState) :
    (consumeStock i q s).1.orders = s.orders := by
  simp only [consumeStock]; split <;> rfl


/-! ## Scan characterization -/

theorem getA_mem {α β : Type} [BEq α] [LawfulBEq α] {k : α} {v : β} :
    ∀ {l : List (α × β)}, getA k l = some v → (k, v) ∈ l := by
  intro l
  induction l with
  | nil => intro h; simp [getA] at h
  | cons hd tl ih =>
    obtain ⟨k', v'⟩ := hd
    intro h
    by_cases hk : (k' == k) = true
    · simp only [getA, if_pos hk] at h
      cases h
      rw [eq_of_beq hk]
      exact List.mem_cons_self _ _
    · simp only [getA, if_neg hk] at h
      exact List.mem_cons_of_mem _ (ih h)

theorem scanLb_some (startDate : ℤ) (avail : ℤ → ℚ) (needed : ℚ) (reqStart : ℤ) :
    ∀ (rem lb : ℕ) (d : ℤ), scanLb startDate avail needed reqStart lb rem = some d →
      ∃ j : ℕ, lb ≤ j ∧ j < lb + rem ∧ d = reqStart - (j : ℤ) ∧ startDate ≤ d ∧
        needed ≤ avail d ∧
        ∀ j2 : ℕ, lb ≤ j2 → j2 < j → avail (reqStart - (j2 : ℤ)) < needed := by
  intro rem
  induction rem with
  | zero => intro lb d h; simp [scanLb] at h
  | succ n ih =>
    intro lb d h
    simp only [scanLb] at h
    split at h
    · exact absurd h (by simp)
    · split at h
      · cases h
        refine ⟨lb, le_refl _, by omega, rfl, by omega, by assumption, fun j2 h1 h2 => absurd h2 (by omega)⟩
      · obtain ⟨j, hj1, hj2, hj3, hj4, hj5, hj6⟩ := ih (lb + 1) d h
        refine ⟨j, by omega, by omega, hj3, hj4, hj5, ?_⟩
        intro j2 h1 h2
        rcases Nat.eq_or_lt_of_le h1 with he | hlt
        · rw [← he]
          exact lt_of_not_le (by assumption)
        · exact hj6 j2 hlt h2

theorem scanLb_none (startDate : ℤ) (avail : ℤ → ℚ) (needed : ℚ) (reqStart : ℤ) :
    ∀ (rem lb : ℕ), scanLb startDate avail needed reqStart lb rem = none →
      ∀ j : ℕ, lb ≤ j → j < lb + rem → startDate ≤ reqStart - (j : ℤ) →
        avail (reqStart - (j : ℤ)) < needed := by
  intro rem
  induction rem with
  | zero => intro lb h j h1 h2; omega
  | succ n ih =>
    intro lb h j h1 h2 h3
    simp only [scanLb] at h
    split at h
    · exfalso
      have : reqStart - (j : ℤ) ≤ reqStart - (lb : ℤ) := by omega
      omega
    · split at h
      · exact absurd h (by simp)
      · rcases Nat.eq_or_lt_of_le h1 with he | hlt
        · rw [← he]
          exact lt_of_not_le (by assumption)
        · exact ih (lb + 1) h j hlt (by omega) h3

theorem commitDate_some (inp : Inputs) (s : SState) (resId : String) (needed : ℚ)
    (reqStart : ℤ) (d : ℤ) (h : commitDate inp s resId needed reqStart = some d) :
    ∃ lb : ℕ, lb ≤ maxLookback inp ∧ d = reqStart - (lb : ℤ) ∧ inp.startDate ≤ d ∧
      needed ≤ availRes s resId d ∧
      ∀ lb2 : ℕ, lb2 < lb → availRes s resId (reqStart - (lb2 : ℤ)) < needed := by
  obtain ⟨j, _, hj2, hj3, hj4, hj5, hj6⟩ :=
    scanLb_some inp.startDate (availRes s resId) needed reqStart (maxLookback inp + 1) 0 d h
  exact ⟨j, by omega, hj3, hj4, hj5, fun lb2 hlb2 => hj6 lb2 (Nat.zero_le _) hlb2⟩

theorem commitDate_none (inp : Inputs) (s : SState) (resId : String) (needed : ℚ)
    (reqStart : ℤ) (h : commitDate inp s resId needed reqStart = none) :
    ∀ lb : ℕ, lb ≤ maxLookback inp → inp.startDate ≤ reqStart - (lb : ℤ) →
      availRes s resId (reqStart - (lb : ℤ)) < needed := by
  intro lb h1 h2
  exact scanLb_none inp.startDate (availRes s resId) needed reqStart (maxLookback inp + 1) 0 h
    lb (Nat.zero_le _) (by omega) h2

/-! ## Generic invariant preservation through the resolver -/

theorem foldlM_inv {α : Type} (g : SState → α → Option SState) (Inv : SState → Prop)
    (hg : ∀ s c s2, g s c = some s2 → Inv s → Inv s2) :
    ∀ (l : List α) (s s2 : SState), List.foldlM g s l = some s2 → Inv s → Inv s2 := by
  intro l
  induction l with
  | nil =>
    intro s s2 h hi
    simp only [List.foldlM_nil, pure, Option.some.injEq] at h
    rwa [← h]
  | cons c rest ih =>
    intro s s2 h hi
    rw [List.foldlM_cons] at h
    cases hg1 : g s c with
    | none => rw [hg1] at h; exact absurd h (by simp [Bind.bind])
    | some s1 =>
      rw [hg1] at h
      simp only [Bind.bind, Option.bind_some] at h
      exact ih s1 s2 h (hg s c s1 hg1 hi)

theorem resolveStep_inv (inp : Inputs) (Inv : SState → Prop)
    (recur : String → ℚ → ℤ → Bool → SState → Option (SState × ℚ))
    (hrec : ∀ i q d dir s s2 u, recur i q d dir s = some (s2, u) → Inv s → Inv s2)
    (hout : ∀ i due dir q s, Inv s → Inv (recordOutflow inp i due dir q s))
    (hstep : ∀ st s, Inv s → Inv (pushStep st s))
    (hcons : ∀ i q s, Inv s → Inv (consumeStock i q s).1)
    (hmake : ∀ i due lt u s, Inv s → Inv (makeCapStep inp i due lt (due - lt) u s).1)
    (hbuy : ∀ i row due u s, Inv s → Inv (buyStep inp i row due u s).1) :
    ∀ i q due dir s s2 u, resolveStep inp recur i q due dir s = some (s2, u) → Inv s → Inv s2 := by
  intro i q due dir s s2 u hres hInv
  simp only [resolveStep] at hres
  have hInv1 : Inv (recordOutflow inp i due dir q s) := hout i due dir q s hInv
  cases hfi : findItem inp i with
  | none =>
    rw [hfi] at hres
    simp only [Option.some.injEq, Prod.mk.injEq] at hres
    rw [← hres.1]
    exact hstep _ _ hInv1
  | some row =>
    rw [hfi] at hres
    simp only at hres
    have hInv2 : Inv (consumeStock i q (recordOutflow inp i due dir q s)).1 :=
      hcons i q _ hInv1
    split at hres
    · simp only [Option.some.injEq, Prod.mk.injEq] at hres
      rw [← hres.1]
      exact hInv2
    · split at hres
      · -- make branch
        have hInv3 : Inv (if due - ltDaysOf (consumeStock i q (recordOutflow inp i due dir q s)).2
              (baseSecOf inp i row) < inp.startDate then
            pushStep (TraceStep.infeasible InfReason.leadTimeViolation i none)
              (consumeStock i q (recordOutflow inp i due dir q s)).1
          else (consumeStock i q (recordOutflow inp i due dir q s)).1) := by
          split
          · exact hstep _ _ hInv2
          · exact hInv2
        split at hres
        · exact Option.noConfusion hres
        · rename_i s4 hfold
          injection hres with hres2
          have hInv4 : Inv s4 := by
            refine foldlM_inv _ Inv ?_ _ _ _ hfold hInv3
            intro st c st2 hg hi2
            cases hr2 : recur c.childid
                ((consumeStock i q (recordOutflow inp i due dir q s)).2 * c.qtyPer)
                (due - ltDaysOf (consumeStock i q (recordOutflow inp i due dir q s)).2
                  (baseSecOf inp i row)) false st with
            | none => rw [hr2] at hg; exact absurd hg (by simp)
            | some pr =>
              rw [hr2] at hg
              simp only [Option.map_some', Option.some.injEq] at hg
              rw [← hg]
              exact hrec _ _ _ _ _ _ _ hr2 hi2
          have h5 : Inv (s2, u).1 := congrArg Prod.fst hres2 ▸ hmake i due _ _ s4 hInv4
          exact h5
      · -- buy branch
        simp only [Option.some.injEq] at hres
        have h5 : Inv (s2, u).1 := congrArg Prod.fst hres ▸ hbuy i row due _ _ hInv2
        exact h5

theorem resolve_inv (inp : Inputs) (Inv : SState → Prop)
    (hout : ∀ i due dir q s, Inv s → Inv (recordOutflow inp i due dir q s))
    (hstep : ∀ st s, Inv s → Inv (pushStep st s))
    (hcons : ∀ i q s, Inv s → Inv (consumeStock i q s).1)
    (hmake : ∀ i due lt u s, Inv s → Inv (makeCapStep inp i due lt (due - lt) u s).1)
    (hbuy : ∀ i row due u s, Inv s → Inv (buyStep inp i row due u s).1) :
    ∀ (fuel : ℕ) (i : String) (q : ℚ) (due : ℤ) (dir : Bool) (s s2 : SState) (u : ℚ),
      resolve inp fuel i q due dir s = some (s2, u) → Inv s → Inv s2 := by
  intro fuel
  induction fuel with
  | zero => intro i q due dir s s2 u h; simp [resolve] at h
  | succ n ih =>
    intro i q due dir s s2 u h hInv
    exact resolveStep_inv inp Inv _ (fun i2 q2 d2 dir2 t t2 u2 h2 => ih i2 q2 d2 dir2 t t2 u2 h2)
      hout hstep hcons hmake hbuy i q due dir s s2 u h hInv

/-! ## Counterexample theorems (closed concrete runs) -/

/-- C1 counterexample: on spec-§8 scenario B (demand 55, share 1, lot size 50,
lot increment 20, capacity 1000) the lot-sizing law prescribes an emitted
purchase of `min(order_qty, cap) = 70`, but the engine emits exactly the
un-lot-sized `base_req = 55`: the `resolve` buy branch never reads
`lot_size`/`lot_increment`. -/
theorem C1_counterexample :
    (runSolver inpLot 3).map (fun r => r.orders.map PlannedOrder.qty) = some [55] ∧
    min (specOrderQty 55 50 20) 1000 = 70 ∧ (55 : ℚ) ≠ 70 := by
  refine ⟨by with_unfolding_all rfl, by with_unfolding_all rfl, by norm_num⟩

/-- C2 counterexample: on the same run the spec's surplus mechanism would
credit `70 − 55 = 15` to `TransientStock["X"]`, but after resolution the
engine's transient stock of `X` is `0`: no surplus is ever credited. -/
theorem C2_counterexample :
    (resolve inpLot 3 "X" 55 3 true (initState inpLot)).map (fun p => stockVal p.1 "X")
      = some 0 ∧
    specSurplus 55 50 20 1000 = 15 ∧ (0 : ℚ) ≠ 15 := by
  refine ⟨by with_unfolding_all rfl, by with_unfolding_all rfl, by norm_num⟩

/-- C5 counterexample: with two constrained make demands the second commits via
lookback one day early, yielding a Production order with
`finish − start = 1 ≠ 0 = lt_days`. -/
theorem C5_counterexample :
    (runSolver inpLookback 3).map (fun r => r.orders.map (fun o => (o.finish - o.start, o.ltDays)))
      = some [(0, 0), (1, 0)] ∧ (1 : ℤ) ≠ 0 := by
  refine ⟨by with_unfolding_all rfl, by norm_num⟩

/-- C8 counterexample: a single demand line for an item absent from the Item
Master still has its quantity recorded as `outflow_direct` (the outflow is
recorded before the master-data lookup), so the total is `5` while the claim's
sum over known-item lines is `0`. -/
theorem C8_counterexample :
    (runSolver inpUnknownItem 3).map (fun r => totalOutD r.mrp) = some 5 ∧
    claimDirectTotal inpUnknownItem = 0 ∧ (5 : ℚ) ≠ 0 := by
  refine ⟨by with_unfolding_all rfl, by with_unfolding_all rfl, by norm_num⟩

/-- C9 counterexample: `run_solver` performs no rounding; a demand of
`1/20000 = 0.00005` flows into the planned-order quantity and the
`outflow_direct` bucket exactly, and `1/20000` is not representable in 4
decimal places. -/
theorem C9_counterexample :
    (runSolver inpTinyQty 3).map (fun r => r.orders.map PlannedOrder.qty) = some [1/20000] ∧
    ¬ is4dp (1/20000) := by
  constructor
  · with_unfolding_all rfl
  · intro h
    have : ((1 : ℚ)/20000 * 10000).den = 2 := by with_unfolding_all rfl
    rw [is4dp] at h
    omega

/-- C9 amended: no 4-dp rounding is applied anywhere in `run_solver`; the
outputs are the exact computed rationals.  Concretely, inputs that are all
4-dp (demand `3/10⁴`, share `7/10⁴`) produce the exact unrounded purchase
quantity `21/10⁸`, which no 4-dp-rounded output could equal. -/
theorem C9_amended :
    (runSolver inpShareFrac 3).map (fun r => r.orders.map PlannedOrder.qty)
      = some [21/100000000] ∧
    ¬ is4dp (21/100000000) ∧
    is4dp demFourDp.qty ∧ is4dp supFourDp.sharePercent := by
  refine ⟨by with_unfolding_all rfl, ?_, by with_unfolding_all rfl, by with_unfolding_all rfl⟩
  intro h
  have : ((21 : ℚ)/100000000 * 10000).den = 10000 := by with_unfolding_all rfl
  rw [is4dp] at h
  omega

/-! ## Non-negativity of the ledgers (claim C3) -/

theorem nonnegState_of_eq {s t : SState} (h1 : t.stock = s.stock) (h2 : t.resCap = s.resCap)
    (h3 : t.supCap = s.supCap) (h : nonnegState s) : nonnegState t := by
  obtain ⟨a, b, c⟩ := h
  exact ⟨h1 ▸ a, h2 ▸ b, h3 ▸ c⟩

theorem consumeStock_nonneg (i : String) (q : ℚ) (s : SState) (h : nonnegState s) :
    nonnegState (consumeStock i q s).1 := by
  obtain ⟨hs, hr, hsup⟩ := h
  simp only [consumeStock]
  split
  · refine ⟨?_, hr, hsup⟩
    intro p hp
    simp only [pushStep] at hp
    rcases mem_updA hp with h1 | ⟨v, hv, hp2⟩
    · exact hs p h1
    · have hval : stockVal s i = v := by simp [stockVal, hv]
      rw [hp2]
      dsimp only
      rw [hval]
      exact sub_nonneg.mpr (min_le_right _ _)
  · exact ⟨hs, hr, hsup⟩

theorem decRes_nonneg (s : SState) (r : String) (d : ℤ) (q : ℚ)
    (hq : q ≤ availRes s r d) (h : nonnegState s) : nonnegState (decRes s r d q) := by
  obtain ⟨hs, hr, hsup⟩ := h
  refine ⟨hs, ?_, hsup⟩
  intro p hp
  simp only [decRes] at hp
  rcases mem_updA hp with h1 | ⟨m, hm, hp2⟩
  · exact hr p h1
  · rw [hp2]
    intro e he
    rcases mem_updA he with h2 | ⟨v, hv, he2⟩
    · exact hr (r, m) (getA_mem hm) e h2
    · rw [he2]
      have hav : availRes s r d = v := by simp [availRes, hm, hv]
      dsimp only
      exact sub_nonneg.mpr (hav ▸ hq)

theorem decSup_nonneg (s : SState) (k : String) (d : ℤ) (q avail : ℚ)
    (hv : lookupSup s k d = some avail) (hq : q ≤ avail) (h : nonnegState s) :
    nonnegState (decSup s k d q) := by
  obtain ⟨hs, hr, hsup⟩ := h
  refine ⟨hs, hr, ?_⟩
  rcases Option.bind_eq_some.mp hv with ⟨m, hm, hdm⟩
  intro p hp
  simp only [decSup] at hp
  rcases mem_updA hp with h1 | ⟨m2, hm2, hp2⟩
  · exact hsup p h1
  · rw [hp2]
    intro e he
    have hmm : m2 = m := by rw [hm] at hm2; exact (Option.some.injEq _ _).mp hm2.symm
    rcases mem_updA he with h2 | ⟨v, hv2, he2⟩
    · exact hsup (k, m2) (getA_mem hm2) e h2
    · rw [he2]
      have hvv : v = avail := by
        rw [hmm] at hv2
        rw [hv2] at hdm
        exact (Option.some.injEq _ _).mp hdm
      dsimp only
      rw [hvv]
      exact sub_nonneg.mpr hq

theorem makeCapStep_nonneg (inp : Inputs) (i : String) (due lt reqStart : ℤ) (u : ℚ)
    (s : SState) (h : nonnegState s) : nonnegState (makeCapStep inp i due lt reqStart u s).1 := by
  simp only [makeCapStep]
  cases hsel : (if inp.isConstrained = true then findResRouting inp i else none) with
  | none =>
    simp only [hsel]
    exact nonnegState_of_eq (by simp [addFresh]) (by simp [addFresh]) (by simp [addFresh]) h
  | some rr =>
    simp only [hsel]
    cases hcd : commitDate inp s rr.resourceid (neededHours u rr.capacityConsumedPer) reqStart with
    | some d =>
      simp only [hcd]
      obtain ⟨lb, _, _, _, hav, _⟩ := commitDate_some inp s _ _ _ d hcd
      exact nonnegState_of_eq (by simp [addFresh]) (by simp [addFresh]) (by simp [addFresh])
        (decRes_nonneg s rr.resourceid d (neededHours u rr.capacityConsumedPer) hav h)
    | none =>
      simp only [hcd]
      exact nonnegState_of_eq (by simp [addShortage]) (by simp [addShortage])
        (by simp [addShortage]) h

theorem allocLoop_nonneg (inp : Inputs) (itemId capKey sName : String) (lt : ℤ) (target : ℚ) :
    ∀ (dates : List ℤ) (s : SState) (u a : ℚ), nonnegState s →
      nonnegState (allocLoop inp itemId capKey sName lt target dates s u a).1 := by
  intro dates
  induction dates with
  | nil => intro s u a h; exact h
  | cons d rest ih =>
    intro s u a h
    simp only [allocLoop]
    cases hl : lookupSup s capKey d with
    | none => exact ih s u a h
    | some avail =>
      have hd : nonnegState (decSup s capKey d (min (target - a) (min u avail))) :=
        decSup_nonneg s capKey d _ avail hl
          (le_trans (min_le_right _ _) (min_le_right _ _)) h
      dsimp only
      split
      · split
        · exact nonnegState_of_eq (by simp [addFresh]) (by simp [addFresh])
            (by simp [addFresh]) hd
        · exact ih _ _ _ (nonnegState_of_eq (by simp [addFresh]) (by simp [addFresh])
            (by simp [addFresh]) hd)
      · split
        · exact h
        · exact ih _ _ _ h

theorem supLoop_nonneg (inp : Inputs) (itemId : String) (due : ℤ) (original : ℚ) :
    ∀ (rows : List SupRow) (s : SState) (u : ℚ), nonnegState s →
      nonnegState (supLoop inp itemId due original rows s u).1 := by
  intro rows
  induction rows with
  | nil => intro s u h; exact h
  | cons r rest ih =>
    intro s u h
    simp only [supLoop]
    split
    · exact h
    · exact ih _ _ (allocLoop_nonneg inp itemId _ _ _ _ _ s u 0 h)

theorem buyStep_nonneg (inp : Inputs) (i : String) (row : ItemRow) (due : ℤ) (u : ℚ)
    (s : SState) (h : nonnegState s) : nonnegState (buyStep inp i row due u s).1 := by
  simp only [buyStep]
  split
  · exact nonnegState_of_eq (by simp [addFresh]) (by simp [addFresh]) (by simp [addFresh]) h
  · have h2 := supLoop_nonneg inp i due u (sortSupsDesc
      (inp.supplierMaster.filter (fun r => r.itemid == i))) s u h
    split
    · exact nonnegState_of_eq (by simp [addShortage]) (by simp [addShortage])
        (by simp [addShortage]) h2
    · exact h2

theorem foldl_setA_forall {α β γ : Type} [BEq α] (key : γ → α) (val : γ → β)
    (P : α × β → Prop) :
    ∀ (rows : List γ) (m : List (α × β)), (∀ p ∈ m, P p) → (∀ r ∈ rows, P (key r, val r)) →
      ∀ p ∈ rows.foldl (fun acc r => setA (key r) (val r) acc) m, P p := by
  intro rows
  induction rows with
  | nil => intro m hm _ p hp; exact hm p hp
  | cons r rest ih =>
    intro m hm hr p hp
    simp only [List.foldl_cons] at hp
    refine ih (setA (key r) (val r) m) ?_ (fun r2 h2 => hr r2 (List.mem_cons_of_mem _ h2)) p hp
    intro p2 hp2
    rcases mem_setA hp2 with h2 | h2
    · exact hm p2 h2
    · rw [h2]; exact hr r (List.mem_cons_self _ _)

theorem foldl_insNewA_forall {α β γ : Type} [BEq α] (key : γ → α) (val : γ → β)
    (P : α × β → Prop) :
    ∀ (rows : List γ) (m : List (α × β)), (∀ p ∈ m, P p) → (∀ r ∈ rows, P (key r, val r)) →
      ∀ p ∈ rows.foldl (fun acc r => insNewA (key r) (val r) acc) m, P p := by
  intro rows
  induction rows with
  | nil => intro m hm _ p hp; exact hm p hp
  | cons r rest ih =>
    intro m hm hr p hp
    simp only [List.foldl_cons] at hp
    refine ih (insNewA (key r) (val r) m) ?_ (fun r2 h2 => hr r2 (List.mem_cons_of_mem _ h2)) p hp
    intro p2 hp2
    rcases mem_insNewA hp2 with h2 | h2
    · exact hm p2 h2
    · rw [h2]; exact hr r (List.mem_cons_self _ _)

theorem initState_nonneg (inp : Inputs)
    (hsupply : ∀ r ∈ inp.supplies, 0 ≤ r.fg + r.rework + r.wip + r.supplier)
    (hres : ∀ r ∈ inp.resRouting, 0 ≤ r.dailyCapacity * r.noOfMachines)
    (hsup : ∀ r ∈ inp.supplierMaster, 0 ≤ r.capPerDay) : nonnegState (initState inp) := by
  refine ⟨?_, ?_, ?_⟩
  · intro p hp
    simp only [initState, initStock] at hp
    exact foldl_setA_forall SupplyRow.itemid
      (fun r => r.fg + r.rework + r.wip + r.supplier) (fun p => 0 ≤ p.2)
      inp.supplies [] (by simp) hsupply p hp
  · intro p hp
    simp only [initState, initResCap] at hp
    refine foldl_insNewA_forall ResRow.resourceid
      (fun r => (extDates inp).map (fun d => (d, r.dailyCapacity * r.noOfMachines)))
      (fun p => ∀ e ∈ p.2, 0 ≤ e.2) inp.resRouting [] (by simp) ?_ p hp
    intro r hr e he
    rcases List.mem_map.mp he with ⟨d, _, hde⟩
    rw [← hde]
    exact hres r hr
  · intro p hp
    simp only [initState, initSupCap] at hp
    refine foldl_insNewA_forall (fun r => capKeyOf r.supplierid r.itemid)
      (fun r => (extDates inp).map (fun d => (d, r.capPerDay)))
      (fun p => ∀ e ∈ p.2, 0 ≤ e.2) inp.supplierMaster [] (by simp) ?_ p hp
    intro r hr e he
    rcases List.mem_map.mp he with ⟨d, _, hde⟩
    rw [← hde]
    exact hsup r hr

/-- C3: throughout every solve invocation the three ledgers stay non-negative
(for data-model-conforming inputs, §3): the initial state is non-negative,
every `resolve` call preserves non-negativity of `TransientStock`,
`ResourceCap` and `SupplierCap` (stock consumption takes `min(unmet, stock)`,
resource capacity is decremented only when `avail ≥ needed`, supplier capacity
only by `can_take ≤ avail`), and hence every completed demand run ends
non-negative. -/
theorem C3_ledgers_nonneg (inp : Inputs)
    (hsupply : ∀ r ∈ inp.supplies, 0 ≤ r.fg + r.rework + r.wip + r.supplier)
    (hres : ∀ r ∈ inp.resRouting, 0 ≤ r.dailyCapacity * r.noOfMachines)
    (hsup : ∀ r ∈ inp.supplierMaster, 0 ≤ r.capPerDay) :
    nonnegState (initState inp) ∧
    (∀ (fuel : ℕ) (i : String) (q : ℚ) (due : ℤ) (dir : Bool) (s s2 : SState) (u : ℚ),
      resolve inp fuel i q due dir s = some (s2, u) → nonnegState s → nonnegState s2) ∧
    (∀ (fuel : ℕ) (s : SState), runDemands inp fuel = some s → nonnegState s) := by
  have hinit := initState_nonneg inp hsupply hres hsup
  have hpres : ∀ (fuel : ℕ) (i : String) (q : ℚ) (due : ℤ) (dir : Bool) (s s2 : SState) (u : ℚ),
      resolve inp fuel i q due dir s = some (s2, u) → nonnegState s → nonnegState s2 := by
    intro fuel i q due dir s s2 u hr2 hn
    refine resolve_inv inp nonnegState ?_ ?_ ?_ ?_ ?_ fuel i q due dir s s2 u hr2 hn
    · intro i2 due2 dir2 q2 t ht
      exact nonnegState_of_eq (by simp) (by simp) (by simp) ht
    · intro st t ht
      exact nonnegState_of_eq (by simp) (by simp) (by simp) ht
    · intro i2 q2 t ht
      exact consumeStock_nonneg i2 q2 t ht
    · intro i2 due2 lt2 u2 t ht
      exact makeCapStep_nonneg inp i2 due2 lt2 (due2 - lt2) u2 t ht
    · intro i2 row due2 u2 t ht
      exact buyStep_nonneg inp i2 row due2 u2 t ht
  refine ⟨hinit, hpres, ?_⟩
  intro fuel s hrun
  refine foldlM_inv _ nonnegState ?_ _ _ _ hrun hinit
  intro t dr t2 hg ht
  cases hr2 : resolve inp fuel dr.itemid dr.qty dr.due true t with
  | none => rw [hr2] at hg; exact absurd hg (by simp)
  | some pr =>
    rw [hr2] at hg
    simp only [Option.map_some', Option.some.injEq] at hg
    rw [← hg]
    exact hpres fuel dr.itemid dr.qty dr.due true t pr.1 pr.2 (by rw [hr2]) ht

/-- C3 witness: the non-negativity theorem applied to the concrete scenario-B
input. -/
theorem C3_ledgers_nonneg_witness :
    nonnegState (initState inpLot) ∧
    (∀ (fuel : ℕ) (i : String) (q : ℚ) (due : ℤ) (dir : Bool) (s s2 : SState) (u : ℚ),
      resolve inpLot fuel i q due dir s = some (s2, u) → nonnegState s → nonnegState s2) ∧
    (∀ (fuel : ℕ) (s : SState), runDemands inpLot fuel = some s → nonnegState s) :=
  C3_ledgers_nonneg inpLot (by simp [inpLot]) (by simp [inpLot])
    (by intro r hr; simp [inpLot] at hr; rw [hr]; norm_num [supSlot])

/-! ## TransientStock never increases (claim C2, amended) -/

theorem stockVal_congr {s t : SState} (h : t.stock = s.stock) (it : String) :
    stockVal t it = stockVal s it := by
  unfold stockVal
  rw [h]

theorem consumeStock_stock_le (i : String) (q : ℚ) (s : SState) (hq : 0 ≤ q) (it : String) :
    stockVal (consumeStock i q s).1 it ≤ stockVal s it := by
  simp only [consumeStock]
  split
  · rename_i hpos
    simp only [pushStep]
    by_cases hit : it = i
    · subst hit
      unfold stockVal
      show (getA it (updA it (fun v => v - min q (stockVal s it)) s.stock)).getD 0 ≤ _
      rw [getA_updA_self]
      cases hg : getA it s.stock with
      | none => simp
      | some v =>
        simp only [Option.map_some', Option.getD_some]
        have hv : stockVal s it = v := by simp [stockVal, hg]
        rw [hv]
        have : 0 ≤ min q v := le_min hq (by rw [← hv]; exact le_of_lt hpos)
        linarith
    · unfold stockVal
      show (getA it (updA i (fun v => v - min q (stockVal s i)) s.stock)).getD 0 ≤ _
      rw [getA_updA_ne _ _ hit]
  · exact le_refl _

theorem consumeStock_unmet_nonneg (i : String) (q : ℚ) (s : SState) (hq : 0 ≤ q) :
    0 ≤ (consumeStock i q s).2 := by
  simp only [consumeStock]
  split
  · simp only []
    have : min q (stockVal s i) ≤ q := min_le_left _ _
    linarith
  · exact hq

theorem makeCapStep_stock (inp : Inputs) (i : String) (due lt reqStart : ℤ) (u : ℚ)
    (s : SState) : (makeCapStep inp i due lt reqStart u s).1.stock = s.stock := by
  simp only [makeCapStep]
  cases hsel : (if inp.isConstrained = true then findResRouting inp i else none) with
  | none => simp [hsel, addFresh]
  | some rr =>
    simp only [hsel]
    cases hcd : commitDate inp s rr.resourceid (neededHours u rr.capacityConsumedPer) reqStart with
    | some d => simp [hcd, addFresh]
    | none => simp [hcd, addShortage]

theorem allocLoop_stock (inp : Inputs) (itemId capKey sName : String) (lt : ℤ) (target : ℚ) :
    ∀ (dates : List ℤ) (s : SState) (u a : ℚ),
      (allocLoop inp itemId capKey sName lt target dates s u a).1.stock = s.stock := by
  intro dates
  induction dates with
  | nil => intro s u a; rfl
  | cons d rest ih =>
    intro s u a
    simp only [allocLoop]
    cases hl : lookupSup s capKey d with
    | none => exact ih s u a
    | some avail =>
      dsimp only
      split
      · split
        · simp [addFresh]
        · rw [ih]; simp [addFresh]
      · split
        · rfl
        · exact ih s u a

theorem supLoop_stock (inp : Inputs) (itemId : String) (due : ℤ) (original : ℚ) :
    ∀ (rows : List SupRow) (s : SState) (u : ℚ),
      (supLoop inp itemId due original rows s u).1.stock = s.stock := by
  intro rows
  induction rows with
  | nil => intro s u; rfl
  | cons r rest ih =>
    intro s u
    simp only [supLoop]
    split
    · rfl
    · rw [ih, allocLoop_stock]

theorem buyStep_stock (inp : Inputs) (i : String) (row : ItemRow) (due : ℤ) (u : ℚ)
    (s : SState) : (buyStep inp i row due u s).1.stock = s.stock := by
  simp only [buyStep]
  split
  · simp [addFresh]
  · split
    · simp only [addShortage, modifyBucket_stock, pushStep_stock]
      rw [supLoop_stock]
    · rw [supLoop_stock]

theorem foldlM_stock_le {α : Type} (g : SState → α → Option SState) :
    ∀ (l : List α),
      (∀ s c, c ∈ l → ∀ s2, g s c = some s2 → ∀ it, stockVal s2 it ≤ stockVal s it) →
      ∀ (s s2 : SState), List.foldlM g s l = some s2 →
        ∀ it, stockVal s2 it ≤ stockVal s it := by
  intro l
  induction l with
  | nil =>
    intro _ s s2 h it
    simp only [List.foldlM_nil, pure, Option.some.injEq] at h
    rw [← h]
  | cons c rest ih =>
    intro hg s s2 h it
    rw [List.foldlM_cons] at h
    cases hg1 : g s c with
    | none => rw [hg1] at h; exact absurd h (by simp [Bind.bind])
    | some s1 =>
      rw [hg1] at h
      simp only [Bind.bind, Option.bind_some] at h
      refine le_trans
        (ih (fun t c2 hc2 t2 hgt => hg t c2 (List.mem_cons_of_mem _ hc2) t2 hgt) s1 s2 h it)
        (hg s c (List.mem_cons_self _ _) s1 hg1 it)

/-- C2 amended: `TransientStock` never increases during resolution.  Every
`resolve` call (for non-negative quantities and BOM multipliers) leaves every
item's transient stock at most its previous value: the buy branch caps
`can_take` at `unmet`, so no lot-sizing surplus exists and stock consumption is
the only mutation of the stock ledger. -/
theorem C2_amended (inp : Inputs) (hbom : ∀ b ∈ inp.bom, 0 ≤ b.qtyPer) :
    ∀ (fuel : ℕ) (i : String) (q : ℚ) (due : ℤ) (dir : Bool) (s s2 : SState) (u : ℚ),
      resolve inp fuel i q due dir s = some (s2, u) → 0 ≤ q →
      ∀ it, stockVal s2 it ≤ stockVal s it := by
  intro fuel
  induction fuel with
  | zero => intro i q due dir s s2 u h; simp [resolve] at h
  | succ n ih =>
    intro i q due dir s s2 u h hq it
    simp only [resolve, resolveStep] at h
    have hrec : stockVal (recordOutflow inp i due dir q s) it = stockVal s it :=
      stockVal_congr (recordOutflow_stock inp i due dir q s) it
    cases hfi : findItem inp i with
    | none =>
      rw [hfi] at h
      simp only [Option.some.injEq, Prod.mk.injEq] at h
      rw [← h.1]
      rw [stockVal_congr (pushStep_stock _ _) it, hrec]
    | some row =>
      rw [hfi] at h
      simp only at h
      have hcs := consumeStock_stock_le i q (recordOutflow inp i due dir q s) hq it
      have hcu := consumeStock_unmet_nonneg i q (recordOutflow inp i due dir q s) hq
      split at h
      · simp only [Option.some.injEq, Prod.mk.injEq] at h
        rw [← h.1]
        exact le_trans hcs (le_of_eq hrec)
      · split at h
        · -- make branch
          split at h
          · exact Option.noConfusion h
          · rename_i s4 hfold
            injection h with h2
            have hs4 : ∀ it2, stockVal s4 it2 ≤
                stockVal (consumeStock i q (recordOutflow inp i due dir q s)).1 it2 := by
              intro it2
              have hfold2 := foldlM_stock_le _ _ ?_ _ _ hfold it2
              · refine le_trans hfold2 ?_
                split
                · exact le_of_eq (stockVal_congr (pushStep_stock _ _) it2)
                · exact le_refl _
              · intro t c hc t2 hg it3
                cases hr2 : resolve inp n c.childid
                    ((consumeStock i q (recordOutflow inp i due dir q s)).2 * c.qtyPer)
                    (due - ltDaysOf (consumeStock i q (recordOutflow inp i due dir q s)).2
                      (baseSecOf inp i row)) false t with
                | none => rw [hr2] at hg; exact absurd hg (by simp)
                | some pr =>
                  rw [hr2] at hg
                  simp only [Option.map_some', Option.some.injEq] at hg
                  rw [← hg]
                  refine ih c.childid _ _ false t pr.1 pr.2 (by rw [hr2] ) ?_ it3
                  have hb : c ∈ inp.bom := (List.mem_filter.mp hc).1
                  exact mul_nonneg hcu (hbom c hb)
            have hmk : stockVal s2 it =
                stockVal (makeCapStep inp i due
                  (ltDaysOf (consumeStock i q (recordOutflow inp i due dir q s)).2
                    (baseSecOf inp i row))
                  (due - ltDaysOf (consumeStock i q (recordOutflow inp i due dir q s)).2
                    (baseSecOf inp i row))
                  (consumeStock i q (recordOutflow inp i due dir q s)).2 s4).1 it := by
              rw [congrArg Prod.fst h2]
            rw [hmk, stockVal_congr (makeCapStep_stock inp i due _ _ _ s4) it]
            exact le_trans (hs4 it) (le_trans hcs (le_of_eq hrec))
        · -- buy branch
          simp only [Option.some.injEq] at h
          have hb2 : stockVal s2 it =
              stockVal (buyStep inp i row due
                (consumeStock i q (recordOutflow inp i due dir q s)).2
                (consumeStock i q (recordOutflow inp i due dir q s)).1).1 it := by
            rw [congrArg Prod.fst h]
          rw [hb2, stockVal_congr (buyStep_stock inp i row due _ _) it]
          exact le_trans hcs (le_of_eq hrec)

/-- C2 amended witness: the stock-monotonicity theorem applied to the concrete
scenario-B run. -/
theorem C2_amended_witness :
    stockVal (((resolve inpLot 3 "X" 55 3 true (initState inpLot)).map Prod.fst).getD
      (initState inpLot)) "X" ≤ stockVal (initState inpLot) "X" := by
  cases hval : resolve inpLot 3 "X" 55 3 true (initState inpLot) with
  | none =>
    have hs : (resolve inpLot 3 "X" 55 3 true (initState inpLot)).isSome = true := by
      with_unfolding_all rfl
    rw [hval] at hs
    cases hs
  | some p =>
    simp only [Option.map_some', Option.getD_some]
    exact C2_amended inpLot (by simp [inpLot]) 3 "X" 55 3 true (initState inpLot) p.1 p.2
      (by rw [hval]) (by norm_num) "X"

/-! ## The order lead-time law (claim C5, amended) -/

theorem ordersLaw_of_eq {s t : SState} (h : t.orders = s.orders)
    (hs : ∀ o ∈ s.orders, orderLtLaw o) : ∀ o ∈ t.orders, orderLtLaw o := by
  rw [h]; exact hs

theorem ordersLaw_append {s : SState} (l : List PlannedOrder)
    (hs : ∀ o ∈ s.orders, orderLtLaw o) (hl : ∀ o ∈ l, orderLtLaw o) :
    ∀ o ∈ s.orders ++ l, orderLtLaw o := by
  intro o ho
  rcases List.mem_append.mp ho with h | h
  · exact hs o h
  · exact hl o h

theorem makeCapStep_ordersLaw (inp : Inputs) (i : String) (due lt : ℤ) (u : ℚ) (s : SState)
    (h : ∀ o ∈ s.orders, orderLtLaw o) :
    ∀ o ∈ (makeCapStep inp i due lt (due - lt) u s).1.orders, orderLtLaw o := by
  simp only [makeCapStep]
  cases hsel : (if inp.isConstrained = true then findResRouting inp i else none) with
  | none =>
    simp only [hsel, addFresh, modifyBucket_orders, pushStep_orders, pushOrder_orders]
    refine ordersLaw_append _ h ?_
    intro o ho
    rw [List.mem_singleton.mp ho]
    constructor
    · intro he; exact PlanType.noConfusion he
    · intro _
      dsimp only
      omega
  | some rr =>
    simp only [hsel]
    cases hcd : commitDate inp s rr.resourceid (neededHours u rr.capacityConsumedPer)
        (due - lt) with
    | some d =>
      obtain ⟨lb, _, hd, _, _, _⟩ := commitDate_some inp s _ _ _ d hcd
      simp only [hcd, addFresh, modifyBucket_orders, pushStep_orders, pushOrder_orders,
        decRes_orders]
      refine ordersLaw_append _ h ?_
      intro o ho
      rw [List.mem_singleton.mp ho]
      constructor
      · intro he; exact PlanType.noConfusion he
      · intro _
        dsimp only
        omega
    | none =>
      simp only [hcd, addShortage, modifyBucket_orders, pushStep_orders]
      exact h

theorem allocLoop_ordersLaw (inp : Inputs) (itemId capKey sName : String) (lt : ℤ)
    (target : ℚ) :
    ∀ (dates : List ℤ) (s : SState) (u a : ℚ), (∀ o ∈ s.orders, orderLtLaw o) →
      ∀ o ∈ (allocLoop inp itemId capKey sName lt target dates s u a).1.orders, orderLtLaw o := by
  intro dates
  induction dates with
  | nil => intro s u a h; exact h
  | cons d rest ih =>
    intro s u a h
    simp only [allocLoop]
    cases hl : lookupSup s capKey d with
    | none => exact ih s u a h
    | some avail =>
      dsimp only
      have hpush : ∀ o ∈ (addFresh itemId d (min (target - a) (min u avail)) (pushOrder { item := itemId, qty := min (target - a) (min u avail), ptype := PlanType.purchase, start := d - lt, finish := d, res := none, ltDays := lt, supplier := sName } (decSup s capKey d (min (target - a) (min u avail))))).orders, orderLtLaw o := by
        simp only [addFresh, modifyBucket_orders, pushOrder_orders, decSup_orders]
        refine ordersLaw_append _ h ?_
        intro o ho
        rw [List.mem_singleton.mp ho]
        constructor
        · intro _
          dsimp only
          omega
        · intro he; exact PlanType.noConfusion he
      split
      · split
        · exact hpush
        · exact ih _ _ _ hpush
      · split
        · exact h
        · exact ih _ _ _ h

theorem supLoop_ordersLaw (inp : Inputs) (itemId : String) (due : ℤ) (original : ℚ) :
    ∀ (rows : List SupRow) (s : SState) (u : ℚ), (∀ o ∈ s.orders, orderLtLaw o) →
      ∀ o ∈ (supLoop inp itemId due original rows s u).1.orders, orderLtLaw o := by
  intro rows
  induction rows with
  | nil => intro s u h; exact h
  | cons r rest ih =>
    intro s u h
    simp only [supLoop]
    split
    · exact h
    · exact ih _ _ (allocLoop_ordersLaw inp itemId _ _ _ _ _ s u 0 h)

theorem buyStep_ordersLaw (inp : Inputs) (i : String) (row : ItemRow) (due : ℤ) (u : ℚ)
    (s : SState) (h : ∀ o ∈ s.orders, orderLtLaw o) :
    ∀ o ∈ (buyStep inp i row due u s).1.orders, orderLtLaw o := by
  simp only [buyStep]
  split
  · simp only [addFresh, modifyBucket_orders, pushStep_orders, pushOrder_orders]
    refine ordersLaw_append _ h ?_
    intro o ho
    rw [List.mem_singleton.mp ho]
    constructor
    · intro _
      dsimp only
      omega
    · intro he; exact PlanType.noConfusion he
  · have h2 := supLoop_ordersLaw inp i due u (sortSupsDesc
      (inp.supplierMaster.filter (fun r => r.itemid == i))) s u h
    split
    · simp only [addShortage, modifyBucket_orders, pushStep_orders]
      exact h2
    · exact h2

/-- C5 amended: in every completed solve, each Purchase order satisfies
`finish − start = lt_days` exactly, and each Production order satisfies
`finish − start ≥ lt_days` — equality can fail only for capacity-scheduled
production, where the lookback start shifts `start` earlier by the lookback
offset while `lt_days` is unchanged. -/
theorem C5_amended (inp : Inputs) :
    ∀ (fuel : ℕ) (r : SolveResult), runSolver inp fuel = some r →
      ∀ o ∈ r.orders, orderLtLaw o := by
  intro fuel r hrun o ho
  unfold runSolver at hrun
  cases hd : runDemands inp fuel with
  | none => rw [hd] at hrun; exact absurd hrun (by simp)
  | some s =>
    rw [hd] at hrun
    simp only [Option.map_some', Option.some.injEq] at hrun
    have hs : ∀ o2 ∈ s.orders, orderLtLaw o2 := by
      have hinv : ∀ (t t2 : SState) (i : String) (q : ℚ) (due : ℤ) (dir : Bool) (u : ℚ),
          resolve inp fuel i q due dir t = some (t2, u) →
          (∀ o2 ∈ t.orders, orderLtLaw o2) → ∀ o2 ∈ t2.orders, orderLtLaw o2 := by
        intro t t2 i q due dir u hres hlaw
        refine resolve_inv inp (fun st => ∀ o2 ∈ st.orders, orderLtLaw o2) ?_ ?_ ?_ ?_ ?_
          fuel i q due dir t t2 u hres hlaw
        · intro i2 due2 dir2 q2 st hst
          exact ordersLaw_of_eq (recordOutflow_orders inp i2 due2 dir2 q2 st) hst
        · intro st2 st hst
          exact ordersLaw_of_eq (pushStep_orders st2 st) hst
        · intro i2 q2 st hst
          exact ordersLaw_of_eq (consumeStock_orders i2 q2 st) hst
        · intro i2 due2 lt2 u2 st hst
          exact makeCapStep_ordersLaw inp i2 due2 lt2 u2 st hst
        · intro i2 row due2 u2 st hst
          exact buyStep_ordersLaw inp i2 row due2 u2 st hst
      refine foldlM_inv _ (fun st => ∀ o2 ∈ st.orders, orderLtLaw o2) ?_ _ _ _ hd ?_
      · intro t dr t2 hg ht
        cases hr2 : resolve inp fuel dr.itemid dr.qty dr.due true t with
        | none => rw [hr2] at hg; exact absurd hg (by simp)
        | some pr =>
          rw [hr2] at hg
          simp only [Option.map_some', Option.some.injEq] at hg
          rw [← hg]
          exact hinv t pr.1 dr.itemid dr.qty dr.due true pr.2 (by rw [hr2]) ht
      · intro o2 ho2
        simp [initState] at ho2
    rw [← hrun] at ho
    exact hs o ho

/-- C5 amended witness: the law holds for the lookback-shifted order of the
concrete two-demand run (`finish − start = 1 ≥ 0 = lt_days`). -/
theorem C5_amended_witness :
    orderLtLaw { item := "P", qty := 5, ptype := PlanType.production, start := 4, finish := 5, res := some "R", ltDays := 0, supplier := strInternal } := by
  cases hval : runSolver inpLookback 3 with
  | none =>
    have hs : (runSolver inpLookback 3).isSome = true := by with_unfolding_all rfl
    rw [hval] at hs
    cases hs
  | some r =>
    have hmap : (runSolver inpLookback 3).map SolveResult.orders =
        some [{ item := "P", qty := 5, ptype := PlanType.production, start := 5, finish := 5, res := some "R", ltDays := 0, supplier := strInternal }, { item := "P", qty := 5, ptype := PlanType.production, start := 4, finish := 5, res := some "R", ltDays := 0, supplier := strInternal }] := by
      with_unfolding_all rfl
    rw [hval] at hmap
    simp only [Option.map_some', Option.some.injEq] at hmap
    refine C5_amended inpLookback 3 r hval _ ?_
    rw [hmap]
    simp

/-! ## Supplier-allocation quantity characterization (claim C1, amended) -/

theorem lookupSup_decSup_ne (s : SState) (k0 : String) (d0 : ℤ) (q : ℚ) (k : String)
    {d : ℤ} (hne : d ≠ d0) : lookupSup (decSup s k0 d0 q) k d = lookupSup s k d := by
  unfold lookupSup decSup
  by_cases hk : k = k0
  · subst hk
    simp only [getA_updA_self]
    cases getA k s.supCap with
    | none => rfl
    | some m =>
      simp only [Option.map_some', Option.some_bind]
      exact getA_updA_ne _ m hne
  · rw [getA_updA_ne _ _ hk]

theorem allocEmitsLaw_congr (capKey sName itemId : String) (lt : ℤ) (target : ℚ)
    (s s2 : SState) (dates dates2 : List ℤ)
    (hsub : ∀ x, x ∈ dates → x ∈ dates2)
    (hlk : ∀ x, x ∈ dates → lookupSup s2 capKey x = lookupSup s capKey x) :
    ∀ (new : List PlannedOrder) (u a : ℚ),
      allocEmitsLaw capKey sName itemId lt target s dates u a new →
      allocEmitsLaw capKey sName itemId lt target s2 dates2 u a new := by
  intro new
  induction new with
  | nil => intro u a h; exact h
  | cons o rest2 ih2 =>
    intro u a h
    obtain ⟨⟨avail, hlo, hq⟩, hpos, hitem, hpt, hfin, hst, hlt, hsup, hrec⟩ := h
    refine ⟨⟨avail, ?_, hq⟩, hpos, hitem, hpt, hsub o.finish hfin, hst, hlt, hsup,
      ih2 _ _ hrec⟩
    rw [hlk o.finish hfin]
    exact hlo

/-- C1 amended: the supplier-allocation loop never applies lot sizing.  Over
any duplicate-free date list, the loop appends a list `new` of Purchase orders
to the existing orders, and `new` satisfies the allocation law: threading the
running unmet `u` and allocated `a` through the emissions, every order's
quantity is exactly `min(target_for_supplier − sup_allocated, unmet, avail)`
for the emission-time running values, with `avail` the supplier ledger's
capacity at the order's finish date — `base_req = min(target − allocated,
unmet)` capped by remaining capacity, never rounded up to `lot_size` or a
`lot_increment` multiple — and each order is strictly positive, finishes on
one of the given dates, and starts `lt` days earlier. -/
theorem C1_amended (inp : Inputs) (itemId capKey sName : String) (lt : ℤ) (target : ℚ) :
    ∀ (dates : List ℤ) (s : SState) (u a : ℚ), dates.Nodup →
      ∃ new : List PlannedOrder,
        (allocLoop inp itemId capKey sName lt target dates s u a).1.orders =
          s.orders ++ new ∧
        allocEmitsLaw capKey sName itemId lt target s dates u a new := by
  intro dates
  induction dates with
  | nil =>
    intro s u a _
    exact ⟨[], (List.append_nil s.orders).symm, trivial⟩
  | cons d rest ih =>
    intro s u a hnd
    rw [List.nodup_cons] at hnd
    simp only [allocLoop]
    cases hl : lookupSup s capKey d with
    | none =>
      dsimp only
      obtain ⟨new2, heq2, hlaw2⟩ := ih s u a hnd.2
      exact ⟨new2, heq2, allocEmitsLaw_congr capKey sName itemId lt target s s rest (d :: rest)
        (fun x hx => List.mem_cons_of_mem d hx) (fun x hx => rfl) new2 u a hlaw2⟩
    | some avail =>
      dsimp only
      by_cases hpos : 0 < min (target - a) (min u avail)
      · rw [if_pos hpos]
        by_cases hbrk : target ≤ a + min (target - a) (min u avail) ∨
            u - min (target - a) (min u avail) ≤ 0
        · rw [if_pos hbrk]
          refine ⟨[{ item := itemId, qty := min (target - a) (min u avail), ptype := PlanType.purchase, start := d - lt, finish := d, res := none, ltDays := lt, supplier := sName }], ?_, ?_⟩
          · simp [addFresh]
          · exact ⟨⟨avail, hl, rfl⟩, hpos, rfl, rfl, List.mem_cons_self _ _, rfl, rfl, rfl,
              trivial⟩
        · rw [if_neg hbrk]
          obtain ⟨new2, heq2, hlaw2⟩ := ih (addFresh itemId d (min (target - a) (min u avail)) (pushOrder { item := itemId, qty := min (target - a) (min u avail), ptype := PlanType.purchase, start := d - lt, finish := d, res := none, ltDays := lt, supplier := sName } (decSup s capKey d (min (target - a) (min u avail))))) (u - min (target - a) (min u avail)) (a + min (target - a) (min u avail)) hnd.2
          refine ⟨{ item := itemId, qty := min (target - a) (min u avail), ptype := PlanType.purchase, start := d - lt, finish := d, res := none, ltDays := lt, supplier := sName } :: new2, ?_, ?_⟩
          · rw [heq2]
            simp [addFresh, List.append_assoc]
          · refine ⟨⟨avail, hl, rfl⟩, hpos, rfl, rfl, List.mem_cons_self _ _, rfl, rfl, rfl, ?_⟩
            refine allocEmitsLaw_congr capKey sName itemId lt target _ s rest (d :: rest)
              (fun x hx => List.mem_cons_of_mem d hx) ?_ new2 _ _ hlaw2
            intro x hx
            have hxd : x ≠ d := fun hxe => hnd.1 (hxe ▸ hx)
            exact (lookupSup_decSup_ne s capKey d _ capKey hxd).symm
      · rw [if_neg hpos]
        by_cases hbrk2 : target ≤ a ∨ u ≤ 0
        · rw [if_pos hbrk2]
          exact ⟨[], (List.append_nil s.orders).symm, trivial⟩
        · rw [if_neg hbrk2]
          obtain ⟨new2, heq2, hlaw2⟩ := ih s u a hnd.2
          exact ⟨new2, heq2, allocEmitsLaw_congr capKey sName itemId lt target s s rest
            (d :: rest) (fun x hx => List.mem_cons_of_mem d hx) (fun x hx => rfl) new2 u a
            hlaw2⟩

/-- C1 amended witness: the law applied to the scenario-B allocation — the
single date `3` has capacity `1000`, so the loop emits exactly one order whose
quantity is `min(55 − 0, min 55 1000) = 55` (not a lot-sized `70`). -/
theorem C1_amended_witness :
    ∃ new : List PlannedOrder,
      (allocLoop inpLot "X" (capKeyOf "S" "X") "S" 3 55 [3] (initState inpLot) 55 0).1.orders =
        (initState inpLot).orders ++ new ∧
      allocEmitsLaw (capKeyOf "S" "X") "S" "X" 3 55 (initState inpLot) [3] 55 0 new :=
  C1_amended inpLot "X" (capKeyOf "S" "X") "S" 3 55 [3] (initState inpLot) 55 0 (by decide)

/-! ## Supplier-purchase finish dates lie in the capacity ledger (claim C10) -/

theorem getA_mem_keys {α β : Type} [BEq α] [LawfulBEq α] {k : α} {v : β} {l : List (α × β)}
    (h : getA k l = some v) : k ∈ l.map Prod.fst :=
  List.mem_map.mpr ⟨(k, v), getA_mem h, rfl⟩

theorem getA_map_keys {α β : Type} [BEq α] [LawfulBEq α] (f : α → β) (l : List α) (k : α)
    (v : β) (h : getA k (l.map (fun x => (x, f x))) = some v) : k ∈ l := by
  induction l with
  | nil => simp [getA] at h
  | cons x xs ih =>
    simp only [List.map_cons, getA] at h
    split at h
    · rename_i hx
      rw [← eq_of_beq hx]
      exact List.mem_cons_self _ _
    · exact List.mem_cons_of_mem _ (ih h)

theorem lookupSup_congr {s t : SState} (h : t.supCap = s.supCap) (k : String) (d : ℤ) :
    lookupSup t k d = lookupSup s k d := by
  unfold lookupSup
  rw [h]

theorem lookupSup_decSup_isSome (s : SState) (k0 : String) (d0 : ℤ) (q : ℚ)
    (k : String) (d : ℤ) :
    (lookupSup (decSup s k0 d0 q) k d).isSome = (lookupSup s k d).isSome := by
  unfold lookupSup decSup
  dsimp only
  by_cases hk : k = k0
  · subst hk
    rw [getA_updA_self]
    cases hg : getA k s.supCap with
    | none => simp
    | some m => simp [getA_updA_isSome]
  · rw [getA_updA_ne _ _ hk]

theorem allocLoop_supSome (inp : Inputs) (itemId capKey sName : String) (lt : ℤ)
    (target : ℚ) :
    ∀ (dates : List ℤ) (s : SState) (u a : ℚ) (k : String) (d : ℤ),
      (lookupSup (allocLoop inp itemId capKey sName lt target dates s u a).1 k d).isSome =
        (lookupSup s k d).isSome := by
  intro dates
  induction dates with
  | nil => intro s u a k d; rfl
  | cons d0 rest ih =>
    intro s u a k d
    simp only [allocLoop]
    cases hl : lookupSup s capKey d0 with
    | none => exact ih s u a k d
    | some avail =>
      dsimp only
      have hstep : ∀ (ct : ℚ),
          (lookupSup (addFresh itemId d0 ct (pushOrder { item := itemId, qty := ct, ptype := PlanType.purchase, start := d0 - lt, finish := d0, res := none, ltDays := lt, supplier := sName } (decSup s capKey d0 ct))) k d).isSome = (lookupSup s k d).isSome := by
        intro ct
        have hsc : (addFresh itemId d0 ct (pushOrder { item := itemId, qty := ct, ptype := PlanType.purchase, start := d0 - lt, finish := d0, res := none, ltDays := lt, supplier := sName } (decSup s capKey d0 ct))).supCap = (decSup s capKey d0 ct).supCap := by
          simp [addFresh]
        rw [lookupSup_congr hsc k d]
        exact lookupSup_decSup_isSome s capKey d0 ct k d
      split
      · split
        · exact hstep _
        · rw [ih _ _ _ k d]
          exact hstep _
      · split
        · rfl
        · exact ih s u a k d

theorem supLoop_supSome (inp : Inputs) (itemId : String) (due : ℤ) (original : ℚ) :
    ∀ (rows : List SupRow) (s : SState) (u : ℚ) (k : String) (d : ℤ),
      (lookupSup (supLoop inp itemId due original rows s u).1 k d).isSome =
        (lookupSup s k d).isSome := by
  intro rows
  induction rows with
  | nil => intro s u k d; rfl
  | cons r rest ih =>
    intro s u k d
    simp only [supLoop]
    split
    · rfl
    · rw [ih _ _ k d, allocLoop_supSome]

theorem makeCapStep_supCap (inp : Inputs) (i : String) (due lt reqStart : ℤ) (u : ℚ)
    (s : SState) : (makeCapStep inp i due lt reqStart u s).1.supCap = s.supCap := by
  simp only [makeCapStep]
  cases hsel : (if inp.isConstrained = true then findResRouting inp i else none) with
  | none => simp [hsel, addFresh]
  | some rr =>
    simp only [hsel]
    cases hcd : commitDate inp s rr.resourceid (neededHours u rr.capacityConsumedPer) reqStart with
    | some d => simp [hcd, addFresh]
    | none => simp [hcd, addShortage]

theorem buyStep_supSome (inp : Inputs) (i : String) (row : ItemRow) (due : ℤ) (u : ℚ)
    (s : SState) (k : String) (d : ℤ) :
    (lookupSup (buyStep inp i row due u s).1 k d).isSome = (lookupSup s k d).isSome := by
  simp only [buyStep]
  split
  · have hsc : (pushStep (TraceStep.purchase i u) (addFresh i due u (pushOrder { item := i, qty := u, ptype := PlanType.purchase, start := due - ratTrunc row.leadtimeBuy, finish := due, res := none, ltDays := ratTrunc row.leadtimeBuy, supplier := strUnknown } s))).supCap = s.supCap := by
      simp [addFresh]
    rw [lookupSup_congr hsc k d]
  · split
    · have hsc : (addShortage i due (supLoop inp i due u (sortSupsDesc (List.filter (fun r => r.itemid == i) inp.supplierMaster)) s u).2 (pushStep (TraceStep.infeasible InfReason.supplierShortage i none) (supLoop inp i due u (sortSupsDesc (List.filter (fun r => r.itemid == i) inp.supplierMaster)) s u).1)).supCap = (supLoop inp i due u (sortSupsDesc (List.filter (fun r => r.itemid == i) inp.supplierMaster)) s u).1.supCap := by
        simp [addShortage]
      rw [lookupSup_congr hsc k d]
      exact supLoop_supSome inp i due u _ s u k d
    · exact supLoop_supSome inp i due u _ s u k d

/-- C10: every Purchase order emitted by the supplier-allocation loop finishes
on a date that is a key of the supplier-capacity ledger.  Conjuncts: (1) the
initial ledger's keys lie in `[start, start + horizon + 60]`; (2) no `resolve`
call ever adds or removes ledger keys; (3) any order the allocation loop
appends is a Purchase whose finish date is a present ledger key (absent dates
are skipped by the `continue`).  In particular no supplier purchase finishes
before the simulation start. -/
theorem C10_supplier_dates (inp : Inputs) :
    (∀ (k : String) (d : ℤ) (v : ℚ), lookupSup (initState inp) k d = some v →
      inp.startDate ≤ d ∧ d ≤ inp.startDate + (inp.horizon : ℤ) + 60) ∧
    (∀ (fuel : ℕ) (i : String) (q : ℚ) (due : ℤ) (dir : Bool) (s s2 : SState) (u : ℚ),
      resolve inp fuel i q due dir s = some (s2, u) →
      ∀ (k : String) (d : ℤ), (lookupSup s2 k d).isSome = (lookupSup s k d).isSome) ∧
    (∀ (itemId capKey sName : String) (lt : ℤ) (target : ℚ) (dates : List ℤ) (s : SState)
        (u a : ℚ), ∀ o ∈ (allocLoop inp itemId capKey sName lt target dates s u a).1.orders,
      o ∈ s.orders ∨
        ((lookupSup s capKey o.finish).isSome = true ∧ o.ptype = PlanType.purchase)) := by
  refine ⟨?_, ?_, ?_⟩
  · intro k d v h
    rcases Option.bind_eq_some.mp h with ⟨m, hm, hdm⟩
    have hkm : (k, m) ∈ (initState inp).supCap := getA_mem hm
    have hrange : ∀ p ∈ (initState inp).supCap,
        ∀ (d2 : ℤ) (v2 : ℚ), getA d2 p.2 = some v2 →
          inp.startDate ≤ d2 ∧ d2 ≤ inp.startDate + (inp.horizon : ℤ) + 60 := by
      intro p hp
      simp only [initState, initSupCap] at hp
      refine foldl_insNewA_forall (fun r => capKeyOf r.supplierid r.itemid)
        (fun r => (extDates inp).map (fun d2 => (d2, r.capPerDay)))
        (fun p => ∀ (d2 : ℤ) (v2 : ℚ), getA d2 p.2 = some v2 →
          inp.startDate ≤ d2 ∧ d2 ≤ inp.startDate + (inp.horizon : ℤ) + 60)
        inp.supplierMaster [] (by simp) ?_ p hp
      intro r _ d2 v2 hg
      have hd2 : d2 ∈ extDates inp := getA_map_keys _ _ _ _ hg
      unfold extDates at hd2
      rcases List.mem_map.mp hd2 with ⟨idx, hidx, hde2⟩
      rw [List.mem_range] at hidx
      have hde3 : inp.startDate + (idx : ℤ) = d2 := hde2
      omega
    exact hrange (k, m) hkm d v hdm
  · intro fuel i q due dir s s2 u h k d
    refine resolve_inv inp
      (fun t => ∀ (k2 : String) (d2 : ℤ),
        (lookupSup t k2 d2).isSome = (lookupSup s k2 d2).isSome)
      ?_ ?_ ?_ ?_ ?_ fuel i q due dir s s2 u h (fun _ _ => rfl) k d
    · intro i2 due2 dir2 q2 t ht k2 d2
      rw [lookupSup_congr (recordOutflow_supCap inp i2 due2 dir2 q2 t) k2 d2]
      exact ht k2 d2
    · intro st t ht k2 d2
      rw [lookupSup_congr (pushStep_supCap st t) k2 d2]
      exact ht k2 d2
    · intro i2 q2 t ht k2 d2
      rw [lookupSup_congr (consumeStock_supCap i2 q2 t) k2 d2]
      exact ht k2 d2
    · intro i2 due2 lt2 u2 t ht k2 d2
      rw [lookupSup_congr (makeCapStep_supCap inp i2 due2 lt2 (due2 - lt2) u2 t) k2 d2]
      exact ht k2 d2
    · intro i2 row due2 u2 t ht k2 d2
      rw [buyStep_supSome inp i2 row due2 u2 t k2 d2]
      exact ht k2 d2
  · intro itemId capKey sName lt target dates
    induction dates with
    | nil => intro s u a o ho; exact Or.inl ho
    | cons d0 rest ih =>
      intro s u a o ho
      rw [allocLoop] at ho
      cases hl : lookupSup s capKey d0 with
      | none =>
        rw [hl] at ho
        exact ih s u a o ho
      | some avail =>
        rw [hl] at ho
        dsimp only at ho
        have hnewmem : ∀ o2 ∈ (addFresh itemId d0 (min (target - a) (min u avail)) (pushOrder { item := itemId, qty := min (target - a) (min u avail), ptype := PlanType.purchase, start := d0 - lt, finish := d0, res := none, ltDays := lt, supplier := sName } (decSup s capKey d0 (min (target - a) (min u avail))))).orders,
            o2 ∈ s.orders ∨
              ((lookupSup s capKey o2.finish).isSome = true ∧ o2.ptype = PlanType.purchase) := by
          intro o2 ho2
          simp only [addFresh, modifyBucket_orders, pushOrder_orders, decSup_orders] at ho2
          rcases List.mem_append.mp ho2 with h | h
          · exact Or.inl h
          · rw [List.mem_singleton.mp h]
            refine Or.inr ⟨?_, rfl⟩
            rw [hl]
            rfl
        split at ho
        · split at ho
          · exact hnewmem o ho
          · rcases ih _ _ _ o ho with h | ⟨h1, h2⟩
            · exact hnewmem o h
            · refine Or.inr ⟨?_, h2⟩
              rw [← h1]
              have hsc : (addFresh itemId d0 (min (target - a) (min u avail)) (pushOrder { item := itemId, qty := min (target - a) (min u avail), ptype := PlanType.purchase, start := d0 - lt, finish := d0, res := none, ltDays := lt, supplier := sName } (decSup s capKey d0 (min (target - a) (min u avail))))).supCap = (decSup s capKey d0 (min (target - a) (min u avail))).supCap := by
                simp [addFresh]
              rw [lookupSup_congr hsc capKey o.finish, lookupSup_decSup_isSome]
        · split at ho
          · exact Or.inl ho
          · exact ih s u a o ho

/-- C10 witness: the ledger-range conjunct applied to the concrete key
`S_X` at date 3 of the scenario-B input, and the allocation conjunct applied to
the concrete emitted order. -/
theorem C10_supplier_dates_witness :
    ((0 : ℤ) ≤ 3 ∧ (3 : ℤ) ≤ 0 + (5 : ℕ) + 60) ∧
    ({ item := "X", qty := 55, ptype := PlanType.purchase, start := 0, finish := 3, res := none, ltDays := 3, supplier := "S" } ∈ (initState inpLot).orders ∨
      ((lookupSup (initState inpLot) (capKeyOf "S" "X")
          ({ item := "X", qty := 55, ptype := PlanType.purchase, start := 0, finish := 3, res := none, ltDays := 3, supplier := "S" } : PlannedOrder).finish).isSome = true ∧
        ({ item := "X", qty := 55, ptype := PlanType.purchase, start := 0, finish := 3, res := none, ltDays := 3, supplier := "S" } : PlannedOrder).ptype = PlanType.purchase)) := by
  constructor
  · refine (C10_supplier_dates inpLot).1 (capKeyOf "S" "X") 3 1000 ?_
    with_unfolding_all rfl
  · refine (C10_supplier_dates inpLot).2.2 "X" (capKeyOf "S" "X") "S" 3 55 [3]
      (initState inpLot) 55 0 _ ?_
    have horders : (allocLoop inpLot "X" (capKeyOf "S" "X") "S" 3 55 [3] (initState inpLot) 55 0).1.orders = [{ item := "X", qty := 55, ptype := PlanType.purchase, start := 0, finish := 3, res := none, ltDays := 3, supplier := "S" }] := by
      with_unfolding_all rfl
    rw [horders]
    exact List.mem_singleton.mpr rfl

/-! ## The inventory roll (claim C4) -/

theorem rollBuckets_length (r : ℚ) (l : List (ℤ × Bucket)) :
    (rollBuckets r l).length = l.length := by
  induction l generalizing r with
  | nil => rfl
  | cons hd tl ih =>
    obtain ⟨d, b⟩ := hd
    simp only [rollBuckets, List.length_cons, ih]

theorem rollBuckets_get (r : ℚ) (l : List (ℤ × Bucket)) (k : ℕ) (hk : k < l.length)
    (hk2 : k < (rollBuckets r l).length) :
    (rollBuckets r l).get ⟨k, hk2⟩ =
      ((l.get ⟨k, hk⟩).1, rolledBucket (rollRunAt r l k) (l.get ⟨k, hk⟩).2) := by
  induction l generalizing r k with
  | nil => simp at hk
  | cons hd tl ih =>
    obtain ⟨d, b⟩ := hd
    cases k with
    | zero => rfl
    | succ k2 =>
      simp only [rollBuckets, List.get_cons_succ, rollRunAt]
      exact ih (rolledBucket r b).endingStock k2 (by simpa using hk)
        (by simp only [rollBuckets_length]; simpa using hk)

theorem rollRunAt_succ : ∀ (l : List (ℤ × Bucket)) (r : ℚ) (k : ℕ) (hk : k < l.length),
    rollRunAt r l (k + 1) = (rolledBucket (rollRunAt r l k) (l.get ⟨k, hk⟩).2).endingStock := by
  intro l
  induction l with
  | nil => intro r k hk; simp at hk
  | cons hd tl ih =>
    obtain ⟨d, b⟩ := hd
    intro r k hk
    cases k with
    | zero => simp [rollRunAt]
    | succ k2 =>
      simp only [rollRunAt, List.get_cons_succ]
      exact ih (rolledBucket r b).endingStock k2 (by simpa using hk)

theorem rollRunAt_succ_get (r : ℚ) (l : List (ℤ × Bucket)) (k : ℕ) (hk : k < l.length)
    (hk2 : k < (rollBuckets r l).length) :
    rollRunAt r l (k + 1) = ((rollBuckets r l).get ⟨k, hk2⟩).2.endingStock := by
  rw [rollBuckets_get r l k hk hk2, rollRunAt_succ l r k hk]

theorem rollBuckets_map_fst (r : ℚ) (l : List (ℤ × Bucket)) :
    (rollBuckets r l).map Prod.fst = l.map Prod.fst := by
  induction l generalizing r with
  | nil => rfl
  | cons hd tl ih =>
    obtain ⟨d, b⟩ := hd
    simp only [rollBuckets, List.map_cons, ih]

theorem mem_insDate {p y : ℤ × Bucket} : ∀ {l : List (ℤ × Bucket)},
    y ∈ insDate p l → y = p ∨ y ∈ l := by
  intro l
  induction l with
  | nil => intro h; simp [insDate] at h; exact Or.inl h
  | cons x xs ih =>
    intro h
    simp only [insDate] at h
    split at h
    · rcases List.mem_cons.mp h with h2 | h2
      · exact Or.inl h2
      · exact Or.inr h2
    · rcases List.mem_cons.mp h with h2 | h2
      · exact Or.inr (h2 ▸ List.mem_cons_self _ _)
      · rcases ih h2 with h3 | h3
        · exact Or.inl h3
        · exact Or.inr (List.mem_cons_of_mem _ h3)

theorem pairwise_insDate (p : ℤ × Bucket) : ∀ (l : List (ℤ × Bucket)),
    List.Pairwise (fun a b => a.1 ≤ b.1) l →
    List.Pairwise (fun a b => a.1 ≤ b.1) (insDate p l) := by
  intro l
  induction l with
  | nil => intro _; simp [insDate]
  | cons x xs ih =>
    intro h
    rcases List.pairwise_cons.mp h with ⟨hx, hxs⟩
    simp only [insDate]
    split
    · rename_i hle
      refine List.pairwise_cons.mpr ⟨?_, h⟩
      intro y hy
      rcases List.mem_cons.mp hy with h2 | h2
      · rw [h2]; exact hle
      · exact le_trans hle (hx y h2)
    · rename_i hgt
      refine List.pairwise_cons.mpr ⟨?_, ih hxs⟩
      intro y hy
      rcases mem_insDate hy with h2 | h2
      · rw [h2]; omega
      · exact hx y h2

theorem sortByDate_sorted (l : List (ℤ × Bucket)) :
    List.Pairwise (fun a b => a.1 ≤ b.1) (sortByDate l) := by
  unfold sortByDate
  induction l with
  | nil => simp
  | cons x xs ih => exact pairwise_insDate x _ ih

/-- C4: the inventory roll.  For every bucket position `k` of a rolled item
row: the starting stock is `0` for the first bucket and the previous bucket's
ending stock otherwise; the ending stock is
`max 0 (starting + inflow_fresh + inflow_onhand − outflow_direct −
outflow_dep)` (WIP and supplier inflows excluded); when that net is negative
and the resolver recorded no shortage in the pre-roll bucket, the shortage is
back-filled to `|net|`; and the roll walks the dates in ascending order. -/
theorem C4_inventory_roll (l : List (ℤ × Bucket)) (k : ℕ)
    (hk : k < (sortByDate l).length) (hk2 : k < (rollItem l).length)
    (hk3 : k - 1 < (rollItem l).length) :
    (((rollItem l).get ⟨k, hk2⟩).2.startingStock =
      if k = 0 then 0 else ((rollItem l).get ⟨k - 1, hk3⟩).2.endingStock) ∧
    (((rollItem l).get ⟨k, hk2⟩).2.endingStock =
      max 0 (((rollItem l).get ⟨k, hk2⟩).2.startingStock
        + ((rollItem l).get ⟨k, hk2⟩).2.inflowFresh
        + ((rollItem l).get ⟨k, hk2⟩).2.inflowOnhand
        - ((rollItem l).get ⟨k, hk2⟩).2.outflowDirect
        - ((rollItem l).get ⟨k, hk2⟩).2.outflowDep)) ∧
    (((rollItem l).get ⟨k, hk2⟩).2.startingStock
        + ((rollItem l).get ⟨k, hk2⟩).2.inflowFresh
        + ((rollItem l).get ⟨k, hk2⟩).2.inflowOnhand
        - ((rollItem l).get ⟨k, hk2⟩).2.outflowDirect
        - ((rollItem l).get ⟨k, hk2⟩).2.outflowDep < 0 →
      ((sortByDate l).get ⟨k, hk⟩).2.shortage = 0 →
      ((rollItem l).get ⟨k, hk2⟩).2.shortage =
        |((rollItem l).get ⟨k, hk2⟩).2.startingStock
          + ((rollItem l).get ⟨k, hk2⟩).2.inflowFresh
          + ((rollItem l).get ⟨k, hk2⟩).2.inflowOnhand
          - ((rollItem l).get ⟨k, hk2⟩).2.outflowDirect
          - ((rollItem l).get ⟨k, hk2⟩).2.outflowDep|) ∧
    List.Pairwise (fun a b => a ≤ b) ((rollItem l).map Prod.fst) := by
  have hk4 : k < (sortByDate l).length := hk
  have hget := rollBuckets_get 0 (sortByDate l) k hk4 hk2
  have hb : ((rollItem l).get ⟨k, hk2⟩) =
      (((sortByDate l).get ⟨k, hk4⟩).1,
        rolledBucket (rollRunAt 0 (sortByDate l) k) ((sortByDate l).get ⟨k, hk4⟩).2) := hget
  have hnet : ((rollItem l).get ⟨k, hk2⟩).2.startingStock
      + ((rollItem l).get ⟨k, hk2⟩).2.inflowFresh
      + ((rollItem l).get ⟨k, hk2⟩).2.inflowOnhand
      - ((rollItem l).get ⟨k, hk2⟩).2.outflowDirect
      - ((rollItem l).get ⟨k, hk2⟩).2.outflowDep =
      rollNet (rollRunAt 0 (sortByDate l) k) ((sortByDate l).get ⟨k, hk4⟩).2 := by
    rw [hb]
    simp only [rolledBucket, rollNet]
    ring
  refine ⟨?_, ?_, ?_, ?_⟩
  · rw [hb]
    simp only [rolledBucket]
    cases k with
    | zero => simp [rollRunAt]
    | succ k2 =>
      simp only [Nat.succ_ne_zero, if_neg, Nat.add_sub_cancel]
      exact rollRunAt_succ_get 0 (sortByDate l) k2 (by omega) hk3
  · rw [hnet]
    rw [hb]
    simp only [rolledBucket]
  · intro hneg hsh
    rw [hnet] at hneg ⊢
    rw [hb]
    simp only [rolledBucket]
    rw [if_pos ⟨hneg, hsh⟩]
  · rw [show rollItem l = rollBuckets 0 (sortByDate l) from rfl, rollBuckets_map_fst]
    exact List.Pairwise.map Prod.fst (fun a b h => h) (sortByDate_sorted l)

/-- Bucket-count facts for the concrete roll demo. -/
theorem rollDemo_rollLen : (rollItem rollDemo).length = 2 := by with_unfolding_all rfl

theorem rollDemo_sortLen : (sortByDate rollDemo).length = 2 := by with_unfolding_all rfl

/-- C4 witness: the roll law checked at position 1 of the concrete two-bucket
demo (net `5 − 8 = −3 < 0`, no recorded shortage, so shortage back-fills to
`3`). -/
theorem C4_inventory_roll_witness :
    (((rollItem rollDemo).get ⟨1, lt_of_lt_of_eq Nat.one_lt_two rollDemo_rollLen.symm⟩).2.startingStock =
      if 1 = 0 then 0 else ((rollItem rollDemo).get ⟨0, lt_of_lt_of_eq Nat.zero_lt_two rollDemo_rollLen.symm⟩).2.endingStock) ∧
    (((rollItem rollDemo).get ⟨1, lt_of_lt_of_eq Nat.one_lt_two rollDemo_rollLen.symm⟩).2.endingStock =
      max 0 (((rollItem rollDemo).get ⟨1, lt_of_lt_of_eq Nat.one_lt_two rollDemo_rollLen.symm⟩).2.startingStock
        + ((rollItem rollDemo).get ⟨1, lt_of_lt_of_eq Nat.one_lt_two rollDemo_rollLen.symm⟩).2.inflowFresh
        + ((rollItem rollDemo).get ⟨1, lt_of_lt_of_eq Nat.one_lt_two rollDemo_rollLen.symm⟩).2.inflowOnhand
        - ((rollItem rollDemo).get ⟨1, lt_of_lt_of_eq Nat.one_lt_two rollDemo_rollLen.symm⟩).2.outflowDirect
        - ((rollItem rollDemo).get ⟨1, lt_of_lt_of_eq Nat.one_lt_two rollDemo_rollLen.symm⟩).2.outflowDep)) := by
  have h := C4_inventory_roll rollDemo 1
    (lt_of_lt_of_eq Nat.one_lt_two rollDemo_sortLen.symm)
    (lt_of_lt_of_eq Nat.one_lt_two rollDemo_rollLen.symm)
    (lt_of_lt_of_eq Nat.zero_lt_two rollDemo_rollLen.symm)
  exact ⟨h.1, h.2.1⟩

/-! ## Constrained capacity scheduling (claim C6) -/

theorem getA2_updA {α γ β : Type} [BEq α] [LawfulBEq α] [BEq γ] [LawfulBEq γ]
    (k : α) (d : γ) (f : β → β) (l : List (α × List (γ × β))) :
    ((getA k (updA k (fun m => updA d f m) l)).bind (getA d)) =
      ((getA k l).bind (getA d)).map f := by
  rw [getA_updA_self]
  cases getA k l with
  | none => rfl
  | some m => simp [getA_updA_self]

/-- C6: the constrained make-branch scheduling.  With a resource-routing row
and `is_constrained`, the lookback scan visits `lb = 0, 1, …, L`
(`L = 15` when `build_ahead`, else `0`) over dates `req_start − lb`, stopping
at dates before the simulation start.  If it finds a date, that date is the
first one whose available hours cover `needed_hours`; the engine decrements
that capacity by `needed_hours`, appends a Production order `start = d`,
`finish = due` for quantity `unmet`, credits `inflow_fresh[due]` by `unmet`
(when the bucket exists), records a Production step, and zeroes unmet.  If no
date qualifies, every in-range lookback date lacked capacity and the engine
appends a Capacity Bottleneck infeasibility and adds `unmet` to
`shortage[due]`, leaving unmet unchanged. -/
theorem C6_capacity_scheduling (inp : Inputs) (itemId : String) (due lt reqStart : ℤ)
    (u : ℚ) (s : SState) (rr : ResRow)
    (hrr : findResRouting inp itemId = some rr) (hc : inp.isConstrained = true) :
    (∀ d : ℤ,
      commitDate inp s rr.resourceid (neededHours u rr.capacityConsumedPer) reqStart = some d →
      (∃ lb : ℕ, lb ≤ maxLookback inp ∧ d = reqStart - (lb : ℤ) ∧ inp.startDate ≤ d ∧
        neededHours u rr.capacityConsumedPer ≤ availRes s rr.resourceid d ∧
        ∀ lb2 : ℕ, lb2 < lb →
          availRes s rr.resourceid (reqStart - (lb2 : ℤ)) <
            neededHours u rr.capacityConsumedPer) ∧
      (makeCapStep inp itemId due lt reqStart u s).2 = 0 ∧
      (makeCapStep inp itemId due lt reqStart u s).1.orders =
        s.orders ++ [{ item := itemId, qty := u, ptype := PlanType.production, start := d, finish := due, res := some rr.resourceid, ltDays := lt, supplier := strInternal }] ∧
      lookupRes (makeCapStep inp itemId due lt reqStart u s).1 rr.resourceid d =
        (lookupRes s rr.resourceid d).map
          (fun v => v - neededHours u rr.capacityConsumedPer) ∧
      lookupBucket (makeCapStep inp itemId due lt reqStart u s).1 itemId due =
        (lookupBucket s itemId due).map
          (fun b => { b with inflowFresh := b.inflowFresh + u }) ∧
      (makeCapStep inp itemId due lt reqStart u s).1.steps =
        s.steps ++ [TraceStep.production itemId u]) ∧
    (commitDate inp s rr.resourceid (neededHours u rr.capacityConsumedPer) reqStart = none →
      (∀ lb : ℕ, lb ≤ maxLookback inp → inp.startDate ≤ reqStart - (lb : ℤ) →
        availRes s rr.resourceid (reqStart - (lb : ℤ)) <
          neededHours u rr.capacityConsumedPer) ∧
      (makeCapStep inp itemId due lt reqStart u s).2 = u ∧
      (makeCapStep inp itemId due lt reqStart u s).1.orders = s.orders ∧
      lookupBucket (makeCapStep inp itemId due lt reqStart u s).1 itemId due =
        (lookupBucket s itemId due).map (fun b => { b with shortage := b.shortage + u }) ∧
      (makeCapStep inp itemId due lt reqStart u s).1.steps =
        s.steps ++ [TraceStep.infeasible InfReason.capacityBottleneck itemId
          (some rr.resourceid)]) := by
  have hsel : (if inp.isConstrained = true then findResRouting inp itemId else none) =
      some rr := by rw [hc, if_pos rfl, hrr]
  constructor
  · intro d hcd
    have hmk : makeCapStep inp itemId due lt reqStart u s =
        (pushStep (TraceStep.production itemId u)
          (addFresh itemId due u
            (pushOrder { item := itemId, qty := u, ptype := PlanType.production, start := d, finish := due, res := some rr.resourceid, ltDays := lt, supplier := strInternal }
              (decRes s rr.resourceid d (neededHours u rr.capacityConsumedPer)))), 0) := by
      simp only [makeCapStep, hsel, hcd]
    refine ⟨commitDate_some inp s _ _ _ d hcd, ?_, ?_, ?_, ?_, ?_⟩
    · rw [hmk]
    · rw [hmk]
      simp [addFresh]
    · rw [hmk]
      show lookupRes (decRes s rr.resourceid d (neededHours u rr.capacityConsumedPer))
          rr.resourceid d = _
      unfold lookupRes decRes
      exact getA2_updA rr.resourceid d _ s.resCap
    · rw [hmk]
      show lookupBucket (addFresh itemId due u _) itemId due = _
      unfold lookupBucket addFresh modifyBucket
      dsimp only
      exact getA2_updA itemId due _ s.mrp
    · rw [hmk]
      simp [addFresh, modifyBucket, pushOrder, pushStep, decRes]
  · intro hcd
    have hmk : makeCapStep inp itemId due lt reqStart u s =
        (addShortage itemId due u
          (pushStep (TraceStep.infeasible InfReason.capacityBottleneck itemId
            (some rr.resourceid)) s), u) := by
      simp only [makeCapStep, hsel, hcd]
    refine ⟨commitDate_none inp s _ _ _ hcd, ?_, ?_, ?_, ?_⟩
    · rw [hmk]
    · rw [hmk]
      simp [addShortage]
    · rw [hmk]
      show lookupBucket (addShortage itemId due u _) itemId due = _
      unfold lookupBucket addShortage modifyBucket
      dsimp only
      exact getA2_updA itemId due _ s.mrp
    · rw [hmk]
      simp [addShortage, modifyBucket, pushStep]

/-- C6 witness: the scheduling law applied to the first demand of the concrete
lookback input: the scan commits on the due date itself (8h available ≥ 5h
needed), emits the production order and zeroes unmet. -/
theorem C6_capacity_scheduling_witness :
    (makeCapStep inpLookback "P" 5 0 5 5 (initState inpLookback)).2 = 0 ∧
    (makeCapStep inpLookback "P" 5 0 5 5 (initState inpLookback)).1.orders =
      (initState inpLookback).orders ++ [{ item := "P", qty := 5, ptype := PlanType.production, start := 5, finish := 5, res := some "R", ltDays := 0, supplier := strInternal }] := by
  have h := (C6_capacity_scheduling inpLookback "P" 5 0 5 5 (initState inpLookback) resRowP
    (by with_unfolding_all rfl) rfl).1 5 (by with_unfolding_all rfl)
  exact ⟨h.2.1, h.2.2.1⟩

/-! ## BOM explosion precedes capacity scheduling (claim C7) -/

theorem makeCapStep_orders_append (inp : Inputs) (i : String) (due lt reqStart : ℤ)
    (u : ℚ) (s : SState) :
    ∃ tl, (makeCapStep inp i due lt reqStart u s).1.orders = s.orders ++ tl := by
  simp only [makeCapStep]
  cases hsel : (if inp.isConstrained = true then findResRouting inp i else none) with
  | none =>
    refine ⟨[{ item := i, qty := u, ptype := PlanType.production, start := reqStart, finish := due, res := none, ltDays := lt, supplier := strInternal }], ?_⟩
    simp [hsel, addFresh]
  | some rr =>
    cases hcd : commitDate inp s rr.resourceid (neededHours u rr.capacityConsumedPer)
        reqStart with
    | some d =>
      refine ⟨[{ item := i, qty := u, ptype := PlanType.production, start := d, finish := due, res := some rr.resourceid, ltDays := lt, supplier := strInternal }], ?_⟩
      simp [hsel, hcd, addFresh]
    | none =>
      refine ⟨[], ?_⟩
      simp [hsel, hcd, addShortage]

/-- C7: in the make branch the BOM explosion always precedes capacity
scheduling.  When the item is found, resolved as make, and stock leaves unmet
demand, the resolver first folds `resolve` over the item's BOM children — each
child resolved for `unmet × qty_per` at the *requested* start
`due − lt_days` (not any lookback-adjusted start) with `is_direct = false` —
and only then applies the capacity step to the resulting state; the capacity
step only ever appends to the planned orders, so a capacity failure cannot
retract the child orders. -/
theorem C7_bom_before_capacity (inp : Inputs) (fuel : ℕ) (itemId : String) (qty : ℚ)
    (due : ℤ) (dir : Bool) (s : SState) (row : ItemRow)
    (hrow : findItem inp itemId = some row) (hmk : isMakeRow row = true)
    (hum : ¬ (consumeStock itemId qty (recordOutflow inp itemId due dir qty s)).2 ≤ 0) :
    (∀ s4 : SState,
      List.foldlM (fun st c => Option.map Prod.fst (resolve inp fuel c.childid
          ((consumeStock itemId qty (recordOutflow inp itemId due dir qty s)).2 * c.qtyPer)
          (due - ltDaysOf (consumeStock itemId qty (recordOutflow inp itemId due dir qty s)).2
            (baseSecOf inp itemId row)) false st))
        (if due - ltDaysOf (consumeStock itemId qty (recordOutflow inp itemId due dir qty s)).2
              (baseSecOf inp itemId row) < inp.startDate then
          pushStep (TraceStep.infeasible InfReason.leadTimeViolation itemId none)
            (consumeStock itemId qty (recordOutflow inp itemId due dir qty s)).1
        else (consumeStock itemId qty (recordOutflow inp itemId due dir qty s)).1)
        (bomChildren inp itemId) = some s4 →
      resolve inp (fuel + 1) itemId qty due dir s =
        some (makeCapStep inp itemId due
          (ltDaysOf (consumeStock itemId qty (recordOutflow inp itemId due dir qty s)).2
            (baseSecOf inp itemId row))
          (due - ltDaysOf (consumeStock itemId qty (recordOutflow inp itemId due dir qty s)).2
            (baseSecOf inp itemId row))
          (consumeStock itemId qty (recordOutflow inp itemId due dir qty s)).2 s4) ∧
      ∃ tl, (makeCapStep inp itemId due
          (ltDaysOf (consumeStock itemId qty (recordOutflow inp itemId due dir qty s)).2
            (baseSecOf inp itemId row))
          (due - ltDaysOf (consumeStock itemId qty (recordOutflow inp itemId due dir qty s)).2
            (baseSecOf inp itemId row))
          (consumeStock itemId qty (recordOutflow inp itemId due dir qty s)).2 s4).1.orders =
        s4.orders ++ tl) ∧
    (List.foldlM (fun st c => Option.map Prod.fst (resolve inp fuel c.childid
          ((consumeStock itemId qty (recordOutflow inp itemId due dir qty s)).2 * c.qtyPer)
          (due - ltDaysOf (consumeStock itemId qty (recordOutflow inp itemId due dir qty s)).2
            (baseSecOf inp itemId row)) false st))
        (if due - ltDaysOf (consumeStock itemId qty (recordOutflow inp itemId due dir qty s)).2
              (baseSecOf inp itemId row) < inp.startDate then
          pushStep (TraceStep.infeasible InfReason.leadTimeViolation itemId none)
            (consumeStock itemId qty (recordOutflow inp itemId due dir qty s)).1
        else (consumeStock itemId qty (recordOutflow inp itemId due dir qty s)).1)
        (bomChildren inp itemId) = none →
      resolve inp (fuel + 1) itemId qty due dir s = none) := by
  constructor
  · intro s4 hfold
    constructor
    · simp only [resolve, resolveStep, hrow]
      rw [if_neg hum, if_pos hmk, hfold]
    · exact makeCapStep_orders_append inp itemId due _ _ _ s4
  · intro hfold
    simp only [resolve, resolveStep, hrow]
    rw [if_neg hum, if_pos hmk, hfold]

/-- C7 witness: in the concrete make-with-BOM run, the explosion fold succeeds
and the whole resolve call therefore returns the capacity step applied to the
exploded state. -/
theorem C7_bom_before_capacity_witness :
    (resolve inpBom (1 + 1) "P" 5 4 true (initState inpBom)).isSome = true := by
  have hsome : c7Fold.isSome = true := by with_unfolding_all rfl
  have h := (C7_bom_before_capacity inpBom 1 "P" 5 4 true (initState inpBom) rowPmake
      (by with_unfolding_all rfl) (by with_unfolding_all rfl)
      (of_decide_eq_true (by with_unfolding_all rfl))).1 (c7Fold.get hsome)
      (Option.some_get hsome).symm
  rw [h.1]
  rfl

/-! ## Direct-outflow accounting (claim C8, amended): sum machinery -/

theorem sum_updA {α β : Type} [BEq α] (k : α) (f : β → β) (F : β → ℚ) :
    ∀ l : List (α × β), ((updA k f l).map (fun p => F p.2)).sum =
      ((l.map (fun p => F p.2)).sum) +
        ((getA k l).map (fun v => F (f v) - F v)).getD 0 := by
  intro l
  induction l with
  | nil => simp [updA, getA]
  | cons hd tl ih =>
    obtain ⟨k2, v⟩ := hd
    by_cases hk : (k2 == k) = true
    · simp only [updA, getA, if_pos hk, List.map_cons, List.sum_cons, Option.map_some',
        Option.getD_some]
      ring
    · simp only [updA, getA, if_neg hk, List.map_cons, List.sum_cons, ih]
      ring

theorem totalOutD_modify (i : String) (d : ℤ) (f : Bucket → Bucket) (s : SState) :
    totalOutD (modifyBucket i d f s).mrp = totalOutD s.mrp +
      ((getA i s.mrp).map (fun bs =>
        ((getA d bs).map (fun b => (f b).outflowDirect - b.outflowDirect)).getD 0)).getD 0 := by
  unfold totalOutD modifyBucket
  dsimp only
  rw [sum_updA i (fun m => updA d f m) (fun bs => ((bs.map (fun q => q.2.outflowDirect)).sum))
    s.mrp]
  congr 1
  cases getA i s.mrp with
  | none => rfl
  | some bs =>
    simp only [Option.map_some', Option.getD_some]
    rw [sum_updA d f (fun b => b.outflowDirect) bs]
    ring

theorem totalOutD_modify_pres (i : String) (d : ℤ) (f : Bucket → Bucket) (s : SState)
    (hf : ∀ b, (f b).outflowDirect = b.outflowDirect) :
    totalOutD (modifyBucket i d f s).mrp = totalOutD s.mrp := by
  rw [totalOutD_modify]
  have : ((getA i s.mrp).map (fun bs =>
      ((getA d bs).map (fun b => (f b).outflowDirect - b.outflowDirect)).getD 0)).getD 0 = 0 := by
    cases getA i s.mrp with
    | none => rfl
    | some bs =>
      simp only [Option.map_some', Option.getD_some]
      cases getA d bs with
      | none => rfl
      | some b => simp [hf b]
  rw [this, add_zero]

theorem totalOutD_addOutDirect (i : String) (d : ℤ) (q : ℚ) (s : SState) :
    totalOutD (addOutDirect i d q s).mrp = totalOutD s.mrp +
      (if (lookupBucket s i d).isSome = true then q else 0) := by
  unfold addOutDirect
  rw [totalOutD_modify]
  congr 1
  unfold lookupBucket
  cases hg : getA i s.mrp with
  | none => rfl
  | some bs =>
    cases hd2 : getA d bs with
    | none => simp [hd2]
    | some b => simp [hd2]

theorem getA_isSome_iff {α β : Type} [BEq α] [LawfulBEq α] (k : α) (l : List (α × β)) :
    (getA k l).isSome = true ↔ k ∈ l.map Prod.fst := by
  induction l with
  | nil => simp [getA]
  | cons hd tl ih =>
    obtain ⟨k2, v⟩ := hd
    by_cases hk : (k2 == k) = true
    · simp only [getA, if_pos hk, List.map_cons]
      constructor
      · intro _
        rw [eq_of_beq hk]
        exact List.mem_cons_self _ _
      · intro _
        rfl
    · simp only [getA, if_neg hk, List.map_cons, ih]
      constructor
      · intro h
        exact List.mem_cons_of_mem _ h
      · intro h
        rcases List.mem_cons.mp h with h2 | h2
        · exfalso
          rw [h2] at hk
          simp at hk
        · exact h2

theorem mem_mrpDates (inp : Inputs) (d : ℤ) :
    d ∈ mrpDates inp ↔ inp.startDate ≤ d ∧ d ≤ inp.startDate + (inp.horizon : ℤ) := by
  unfold mrpDates
  constructor
  · intro h
    rcases List.mem_map.mp h with ⟨idx, hidx, hde⟩
    rw [List.mem_range] at hidx
    have hde2 : inp.startDate + Int.ofNat idx = d := hde
    rw [Int.ofNat_eq_coe] at hde2
    omega
  · intro ⟨h1, h2⟩
    refine List.mem_map.mpr ⟨(d - inp.startDate).toNat, ?_, ?_⟩
    · rw [List.mem_range]
      omega
    · show inp.startDate + Int.ofNat (d - inp.startDate).toNat = d
      rw [Int.ofNat_eq_coe]
      omega

/-! ## Direct-outflow accounting: MRP-row well-formedness -/

theorem updA_map_fst {α β : Type} [BEq α] (k : α) (f : β → β) :
    ∀ l : List (α × β), (updA k f l).map Prod.fst = l.map Prod.fst := by
  intro l
  induction l with
  | nil => rfl
  | cons hd tl ih =>
    obtain ⟨k2, v⟩ := hd
    by_cases hk : (k2 == k) = true
    · simp [updA, if_pos hk]
    · simp only [updA, if_neg hk, List.map_cons, ih]

theorem mrpWF_modify (inp : Inputs) (i : String) (d : ℤ) (f : Bucket → Bucket) (s : SState)
    (h : mrpWF inp s) : mrpWF inp (modifyBucket i d f s) := by
  intro p hp
  simp only [modifyBucket] at hp
  rcases mem_updA hp with h1 | ⟨bs, hbs, hp2⟩
  · exact h p h1
  · rw [hp2]
    show (updA d f bs).map Prod.fst = mrpDates inp
    rw [updA_map_fst]
    exact h (i, bs) (getA_mem hbs)

theorem initBuckets_map_fst (inp : Inputs) (i : String) :
    (initBuckets inp i).map Prod.fst = mrpDates inp := by
  unfold initBuckets
  rw [List.map_map]
  exact List.map_id _

theorem initBuckets_outD_zero (inp : Inputs) (i : String) :
    ((initBuckets inp i).map (fun q => q.2.outflowDirect)).sum = 0 := by
  unfold initBuckets
  rw [List.map_map]
  refine List.sum_eq_zero ?_
  intro x hx
  rcases List.mem_map.mp hx with ⟨d, _, hde⟩
  rw [← hde]
  show (if (d == inp.startDate) = true then seedBucket inp i else bucket0).outflowDirect = 0
  split
  · rfl
  · rfl

theorem mrpWF_initMrp (inp : Inputs) (i : String) (s : SState) (h : mrpWF inp s) :
    mrpWF inp (initMrp inp i s) := by
  unfold initMrp
  split
  · exact h
  · intro p hp
    simp only at hp
    rcases List.mem_append.mp hp with h1 | h1
    · exact h p h1
    · rw [List.mem_singleton.mp h1]
      exact initBuckets_map_fst inp i

theorem totalOutD_initMrp (inp : Inputs) (i : String) (s : SState) :
    totalOutD (initMrp inp i s).mrp = totalOutD s.mrp := by
  unfold initMrp
  split
  · rfl
  · show totalOutD (s.mrp ++ [(i, initBuckets inp i)]) = totalOutD s.mrp
    unfold totalOutD
    rw [List.map_append, List.sum_append]
    simp [initBuckets_outD_zero]

theorem initMrp_lookup (inp : Inputs) (i : String) (s : SState) (h : mrpWF inp s) :
    ∃ bs, getA i (initMrp inp i s).mrp = some bs ∧ bs.map Prod.fst = mrpDates inp := by
  unfold initMrp
  split
  · rename_i hsome
    cases hg : getA i s.mrp with
    | none => rw [hg] at hsome; simp at hsome
    | some bs => exact ⟨bs, rfl, h (i, bs) (getA_mem hg)⟩
  · rename_i hnone
    refine ⟨initBuckets inp i, ?_, initBuckets_map_fst inp i⟩
    show getA i (s.mrp ++ [(i, initBuckets inp i)]) = some (initBuckets inp i)
    rw [getA_append]
    cases hg : getA i s.mrp with
    | none => simp [getA]
    | some bs => rw [hg] at hnone; simp at hnone

theorem recordOutflow_outD (inp : Inputs) (i : String) (due : ℤ) (dir : Bool) (q : ℚ)
    (s : SState) (hwf : mrpWF inp s) :
    totalOutD (recordOutflow inp i due dir q s).mrp = totalOutD s.mrp +
      (if dir = true ∧ inp.startDate ≤ due ∧ due ≤ inp.startDate + (inp.horizon : ℤ) then q
       else 0) ∧
    mrpWF inp (recordOutflow inp i due dir q s) := by
  unfold recordOutflow
  obtain ⟨bs, hbs, hdates⟩ := initMrp_lookup inp i s hwf
  have hwf1 : mrpWF inp (initMrp inp i s) := mrpWF_initMrp inp i s hwf
  cases dir with
  | false =>
    simp only [Bool.false_eq_true, if_neg, false_and, if_false, not_false_iff]
    constructor
    · unfold addOutDep
      rw [totalOutD_modify_pres i due (fun b => { b with outflowDep := b.outflowDep + q })
        (initMrp inp i s) (fun b => rfl), totalOutD_initMrp, add_zero]
    · exact mrpWF_modify inp i due _ _ hwf1
  | true =>
    simp only [if_pos rfl, true_and]
    constructor
    · rw [if_pos trivial, totalOutD_addOutDirect, totalOutD_initMrp]
      congr 1
      have hiff : (lookupBucket (initMrp inp i s) i due).isSome = true ↔
          (inp.startDate ≤ due ∧ due ≤ inp.startDate + (inp.horizon : ℤ)) := by
        unfold lookupBucket
        rw [hbs]
        show (getA due bs).isSome = true ↔ _
        rw [getA_isSome_iff, hdates, mem_mrpDates]
      by_cases hin : inp.startDate ≤ due ∧ due ≤ inp.startDate + (inp.horizon : ℤ)
      · rw [if_pos (hiff.mpr hin), if_pos hin]
      · rw [if_neg (fun hs2 => hin (hiff.mp hs2)), if_neg hin]
    · rw [if_pos trivial]
      exact mrpWF_modify inp i due _ _ hwf1

/-! ## Direct-outflow accounting: preservation through the branches -/

theorem totalOutD_congr {s t : SState} (h : t.mrp = s.mrp) :
    totalOutD t.mrp = totalOutD s.mrp := by rw [h]

theorem mrpWF_congr (inp : Inputs) {s t : SState} (h : t.mrp = s.mrp) (hs : mrpWF inp s) :
    mrpWF inp t := by
  unfold mrpWF
  rw [h]
  exact hs

theorem totalOutD_addFresh (i : String) (d : ℤ) (q : ℚ) (s : SState) :
    totalOutD (addFresh i d q s).mrp = totalOutD s.mrp :=
  totalOutD_modify_pres i d (fun b => { b with inflowFresh := b.inflowFresh + q }) s
    (fun _ => rfl)

theorem totalOutD_addShortage (i : String) (d : ℤ) (q : ℚ) (s : SState) :
    totalOutD (addShortage i d q s).mrp = totalOutD s.mrp :=
  totalOutD_modify_pres i d (fun b => { b with shortage := b.shortage + q }) s
    (fun _ => rfl)

theorem makeCapStep_outD (inp : Inputs) (i : String) (due lt reqStart : ℤ) (u : ℚ)
    (s : SState) (h : mrpWF inp s) :
    totalOutD (makeCapStep inp i due lt reqStart u s).1.mrp = totalOutD s.mrp ∧
    mrpWF inp (makeCapStep inp i due lt reqStart u s).1 := by
  simp only [makeCapStep]
  cases hsel : (if inp.isConstrained = true then findResRouting inp i else none) with
  | none =>
    dsimp only
    constructor
    · rw [totalOutD_congr (show (pushStep (TraceStep.production i u) (addFresh i due u (pushOrder { item := i, qty := u, ptype := PlanType.production, start := reqStart, finish := due, res := none, ltDays := lt, supplier := strInternal } s))).mrp = (addFresh i due u (pushOrder { item := i, qty := u, ptype := PlanType.production, start := reqStart, finish := due, res := none, ltDays := lt, supplier := strInternal } s)).mrp from rfl)]
      rw [totalOutD_addFresh]
      rfl
    · refine mrpWF_congr inp (t := pushStep _ _) rfl ?_
      exact mrpWF_modify inp i due _ _ (mrpWF_congr inp rfl h)
  | some rr =>
    dsimp only
    cases hcd : commitDate inp s rr.resourceid (neededHours u rr.capacityConsumedPer)
        reqStart with
    | some d =>
      dsimp only
      constructor
      · rw [pushStep_mrp, totalOutD_addFresh]
        rfl
      · refine mrpWF_congr inp (pushStep_mrp _ _) ?_
        exact mrpWF_modify inp i due _ _ (mrpWF_congr inp rfl h)
    | none =>
      dsimp only
      constructor
      · show totalOutD (addShortage i due u _).mrp = _
        rw [totalOutD_addShortage]
        rfl
      · exact mrpWF_modify inp i due _ _ (mrpWF_congr inp rfl h)

theorem allocLoop_outD (inp : Inputs) (itemId capKey sName : String) (lt : ℤ) (target : ℚ) :
    ∀ (dates : List ℤ) (s : SState) (u a : ℚ),
      totalOutD (allocLoop inp itemId capKey sName lt target dates s u a).1.mrp =
        totalOutD s.mrp ∧
      (mrpWF inp s → mrpWF inp (allocLoop inp itemId capKey sName lt target dates s u a).1) := by
  intro dates
  induction dates with
  | nil => intro s u a; exact ⟨rfl, fun h => h⟩
  | cons d rest ih =>
    intro s u a
    simp only [allocLoop]
    cases hl : lookupSup s capKey d with
    | none => exact ih s u a
    | some avail =>
      dsimp only
      have hpush : totalOutD (addFresh itemId d (min (target - a) (min u avail)) (pushOrder { item := itemId, qty := min (target - a) (min u avail), ptype := PlanType.purchase, start := d - lt, finish := d, res := none, ltDays := lt, supplier := sName } (decSup s capKey d (min (target - a) (min u avail))))).mrp = totalOutD s.mrp := by
        rw [totalOutD_addFresh]
        rfl
      have hpushWF : mrpWF inp s → mrpWF inp (addFresh itemId d (min (target - a) (min u avail)) (pushOrder { item := itemId, qty := min (target - a) (min u avail), ptype := PlanType.purchase, start := d - lt, finish := d, res := none, ltDays := lt, supplier := sName } (decSup s capKey d (min (target - a) (min u avail))))) := by
        intro hw
        exact mrpWF_modify inp itemId d _ _ (mrpWF_congr inp rfl hw)
      split
      · split
        · exact ⟨hpush, hpushWF⟩
        · refine ⟨?_, ?_⟩
          · rw [(ih _ _ _).1, hpush]
          · intro hw
            exact (ih _ _ _).2 (hpushWF hw)
      · split
        · exact ⟨rfl, fun h => h⟩
        · exact ih s u a

theorem supLoop_outD (inp : Inputs) (itemId : String) (due : ℤ) (original : ℚ) :
    ∀ (rows : List SupRow) (s : SState) (u : ℚ),
      totalOutD (supLoop inp itemId due original rows s u).1.mrp = totalOutD s.mrp ∧
      (mrpWF inp s → mrpWF inp (supLoop inp itemId due original rows s u).1) := by
  intro rows
  induction rows with
  | nil => intro s u; exact ⟨rfl, fun h => h⟩
  | cons r rest ih =>
    intro s u
    simp only [supLoop]
    split
    · exact ⟨rfl, fun h => h⟩
    · refine ⟨?_, ?_⟩
      · rw [(ih _ _).1, (allocLoop_outD inp itemId _ _ _ _ _ s u 0).1]
      · intro hw
        exact (ih _ _).2 ((allocLoop_outD inp itemId _ _ _ _ _ s u 0).2 hw)

theorem buyStep_outD (inp : Inputs) (i : String) (row : ItemRow) (due : ℤ) (u : ℚ)
    (s : SState) (h : mrpWF inp s) :
    totalOutD (buyStep inp i row due u s).1.mrp = totalOutD s.mrp ∧
    mrpWF inp (buyStep inp i row due u s).1 := by
  simp only [buyStep]
  split
  · constructor
    · rw [pushStep_mrp, totalOutD_addFresh]
      rfl
    · refine mrpWF_congr inp (pushStep_mrp _ _) ?_
      exact mrpWF_modify inp i due _ _ (mrpWF_congr inp rfl h)
  · have hsl := supLoop_outD inp i due u (sortSupsDesc
      (inp.supplierMaster.filter (fun r => r.itemid == i))) s u
    split
    · constructor
      · show totalOutD (addShortage i due _ (pushStep _ _)).mrp = _
        rw [totalOutD_addShortage]
        rw [totalOutD_congr (t := pushStep _ _) rfl]
        exact hsl.1
      · refine mrpWF_modify inp i due _ _ ?_
        exact mrpWF_congr inp rfl (hsl.2 h)
    · exact ⟨hsl.1, hsl.2 h⟩

/-! ## Direct-outflow accounting: the resolver and the demand loop -/

theorem resolve_outD (inp : Inputs) :
    ∀ (fuel : ℕ) (i : String) (q : ℚ) (due : ℤ) (dir : Bool) (s s2 : SState) (u : ℚ),
      resolve inp fuel i q due dir s = some (s2, u) → mrpWF inp s →
      (totalOutD s2.mrp = totalOutD s.mrp +
        (if dir = true ∧ inp.startDate ≤ due ∧ due ≤ inp.startDate + (inp.horizon : ℤ) then q
         else 0)) ∧ mrpWF inp s2 := by
  intro fuel
  induction fuel with
  | zero => intro i q due dir s s2 u h; simp [resolve] at h
  | succ n ih =>
    intro i q due dir s s2 u h hwf
    simp only [resolve, resolveStep] at h
    obtain ⟨hrecΔ, hrecWF⟩ := recordOutflow_outD inp i due dir q s hwf
    have hconsΔ : totalOutD (consumeStock i q (recordOutflow inp i due dir q s)).1.mrp =
        totalOutD (recordOutflow inp i due dir q s).mrp :=
      totalOutD_congr (consumeStock_mrp i q _)
    have hconsWF : mrpWF inp (consumeStock i q (recordOutflow inp i due dir q s)).1 :=
      mrpWF_congr inp (consumeStock_mrp i q _) hrecWF
    cases hfi : findItem inp i with
    | none =>
      rw [hfi] at h
      simp only [Option.some.injEq, Prod.mk.injEq] at h
      rw [← h.1]
      constructor
      · rw [totalOutD_congr (pushStep_mrp _ _), hrecΔ]
      · exact mrpWF_congr inp (pushStep_mrp _ _) hrecWF
    | some row =>
      rw [hfi] at h
      simp only at h
      split at h
      · simp only [Option.some.injEq, Prod.mk.injEq] at h
        rw [← h.1]
        exact ⟨by rw [hconsΔ, hrecΔ], hconsWF⟩
      · split at h
        · -- make branch
          have hs3 : totalOutD (if due - ltDaysOf (consumeStock i q (recordOutflow inp i due dir q s)).2 (baseSecOf inp i row) < inp.startDate then pushStep (TraceStep.infeasible InfReason.leadTimeViolation i none) (consumeStock i q (recordOutflow inp i due dir q s)).1 else (consumeStock i q (recordOutflow inp i due dir q s)).1).mrp = totalOutD s.mrp +
              (if dir = true ∧ inp.startDate ≤ due ∧ due ≤ inp.startDate + (inp.horizon : ℤ)
               then q else 0) ∧
              mrpWF inp (if due - ltDaysOf (consumeStock i q (recordOutflow inp i due dir q s)).2 (baseSecOf inp i row) < inp.startDate then pushStep (TraceStep.infeasible InfReason.leadTimeViolation i none) (consumeStock i q (recordOutflow inp i due dir q s)).1 else (consumeStock i q (recordOutflow inp i due dir q s)).1) := by
            split
            · constructor
              · rw [totalOutD_congr (pushStep_mrp _ _), hconsΔ, hrecΔ]
              · exact mrpWF_congr inp (pushStep_mrp _ _) hconsWF
            · exact ⟨by rw [hconsΔ, hrecΔ], hconsWF⟩
          split at h
          · exact Option.noConfusion h
          · rename_i s4 hfold
            injection h with h2
            have hs4 : totalOutD s4.mrp = totalOutD s.mrp +
                (if dir = true ∧ inp.startDate ≤ due ∧ due ≤ inp.startDate + (inp.horizon : ℤ)
                 then q else 0) ∧ mrpWF inp s4 := by
              refine foldlM_inv _ (fun t => totalOutD t.mrp = totalOutD s.mrp +
                (if dir = true ∧ inp.startDate ≤ due ∧ due ≤ inp.startDate + (inp.horizon : ℤ)
                 then q else 0) ∧ mrpWF inp t) ?_ _ _ _ hfold hs3
              intro t c t2 hg ht
              cases hr2 : resolve inp n c.childid
                  ((consumeStock i q (recordOutflow inp i due dir q s)).2 * c.qtyPer)
                  (due - ltDaysOf (consumeStock i q (recordOutflow inp i due dir q s)).2
                    (baseSecOf inp i row)) false t with
              | none => rw [hr2] at hg; exact absurd hg (by simp)
              | some pr =>
                rw [hr2] at hg
                simp only [Option.map_some', Option.some.injEq] at hg
                rw [← hg]
                obtain ⟨hΔ, hWF⟩ := ih c.childid _ _ false t pr.1 pr.2 (by rw [hr2]) ht.2
                refine ⟨?_, hWF⟩
                rw [hΔ, ht.1]
                simp
            obtain ⟨hmkΔ, hmkWF⟩ := makeCapStep_outD inp i due
              (ltDaysOf (consumeStock i q (recordOutflow inp i due dir q s)).2
                (baseSecOf inp i row))
              (due - ltDaysOf (consumeStock i q (recordOutflow inp i due dir q s)).2
                (baseSecOf inp i row))
              (consumeStock i q (recordOutflow inp i due dir q s)).2 s4 hs4.2
            have heq : (makeCapStep inp i due
                (ltDaysOf (consumeStock i q (recordOutflow inp i due dir q s)).2
                  (baseSecOf inp i row))
                (due - ltDaysOf (consumeStock i q (recordOutflow inp i due dir q s)).2
                  (baseSecOf inp i row))
                (consumeStock i q (recordOutflow inp i due dir q s)).2 s4).1 = s2 := by
              rw [h2]
            rw [← heq]
            exact ⟨by rw [hmkΔ, hs4.1], hmkWF⟩
        · -- buy branch
          simp only [Option.some.injEq] at h
          obtain ⟨hbΔ, hbWF⟩ := buyStep_outD inp i row due
            (consumeStock i q (recordOutflow inp i due dir q s)).2
            (consumeStock i q (recordOutflow inp i due dir q s)).1 hconsWF
          have heq : (buyStep inp i row due
              (consumeStock i q (recordOutflow inp i due dir q s)).2
              (consumeStock i q (recordOutflow inp i due dir q s)).1).1 = s2 := by
            rw [h]
          rw [← heq]
          exact ⟨by rw [hbΔ, hconsΔ, hrecΔ], hbWF⟩

theorem runDemands_fold_outD (inp : Inputs) (fuel : ℕ) :
    ∀ (l : List DemandRow) (s0 : SState), mrpWF inp s0 →
      ∀ s : SState,
        List.foldlM (fun t dr => Option.map Prod.fst
          (resolve inp fuel dr.itemid dr.qty dr.due true t)) s0 l = some s →
        totalOutD s.mrp = totalOutD s0.mrp +
          (l.map (fun dr =>
            if inp.startDate ≤ dr.due ∧ dr.due ≤ inp.startDate + (inp.horizon : ℤ)
            then dr.qty else 0)).sum ∧ mrpWF inp s := by
  intro l
  induction l with
  | nil =>
    intro s0 hwf s h
    simp only [List.foldlM_nil, pure, Option.some.injEq] at h
    rw [← h]
    simp [hwf]
  | cons dr rest ih =>
    intro s0 hwf s h
    rw [List.foldlM_cons] at h
    cases hg1 : Option.map Prod.fst (resolve inp fuel dr.itemid dr.qty dr.due true s0) with
    | none => rw [hg1] at h; exact absurd h (by simp [Bind.bind])
    | some s1 =>
      rw [hg1] at h
      simp only [Bind.bind, Option.bind_some] at h
      cases hr : resolve inp fuel dr.itemid dr.qty dr.due true s0 with
      | none => rw [hr] at hg1; exact absurd hg1 (by simp)
      | some pr =>
        rw [hr] at hg1
        simp only [Option.map_some', Option.some.injEq] at hg1
        obtain ⟨hΔ, hWF⟩ := resolve_outD inp fuel dr.itemid dr.qty dr.due true s0 pr.1 pr.2
          (by rw [hr]) hwf
        rw [← hg1] at h
        obtain ⟨hΔ2, hWF2⟩ := ih pr.1 hWF s h
        refine ⟨?_, hWF2⟩
        rw [hΔ2, hΔ]
        simp only [if_pos rfl, true_and, List.map_cons, List.sum_cons]
        ring

/-! ## Direct-outflow accounting: permutation and roll preservation -/

theorem insDem_perm (r : DemandRow) : ∀ l : List DemandRow, List.Perm (insDem r l) (r :: l) := by
  intro l
  induction l with
  | nil => simp [insDem]
  | cons x xs ih =>
    simp only [insDem]
    split
    · exact List.Perm.refl _
    · exact List.Perm.trans (List.Perm.cons x ih) (List.Perm.swap r x xs)

theorem sortDemand_perm : ∀ l : List DemandRow, List.Perm (sortDemand l) l := by
  intro l
  induction l with
  | nil => simp [sortDemand]
  | cons x xs ih =>
    show List.Perm (insDem x (sortDemand xs)) (x :: xs)
    exact List.Perm.trans (insDem_perm x (sortDemand xs)) (List.Perm.cons x ih)

theorem insDate_perm (p : ℤ × Bucket) :
    ∀ l : List (ℤ × Bucket), List.Perm (insDate p l) (p :: l) := by
  intro l
  induction l with
  | nil => simp [insDate]
  | cons x xs ih =>
    simp only [insDate]
    split
    · exact List.Perm.refl _
    · exact List.Perm.trans (List.Perm.cons x ih) (List.Perm.swap p x xs)

theorem sortByDate_perm : ∀ l : List (ℤ × Bucket), List.Perm (sortByDate l) l := by
  intro l
  induction l with
  | nil => simp [sortByDate]
  | cons x xs ih =>
    show List.Perm (insDate x (sortByDate xs)) (x :: xs)
    exact List.Perm.trans (insDate_perm x (sortByDate xs)) (List.Perm.cons x ih)

theorem rollBuckets_outD (r : ℚ) (l : List (ℤ × Bucket)) :
    ((rollBuckets r l).map (fun q => q.2.outflowDirect)).sum =
      (l.map (fun q => q.2.outflowDirect)).sum := by
  induction l generalizing r with
  | nil => rfl
  | cons hd tl ih =>
    obtain ⟨d, b⟩ := hd
    simp only [rollBuckets, List.map_cons, List.sum_cons, ih]
    rfl

theorem rollItem_outD (l : List (ℤ × Bucket)) :
    ((rollItem l).map (fun q => q.2.outflowDirect)).sum =
      (l.map (fun q => q.2.outflowDirect)).sum := by
  unfold rollItem
  rw [rollBuckets_outD]
  exact List.Perm.sum_eq (List.Perm.map _ (sortByDate_perm l))

theorem totalOutD_roll (m : List (String × List (ℤ × Bucket))) :
    totalOutD (m.map (fun p => (p.1, rollItem p.2))) = totalOutD m := by
  unfold totalOutD
  rw [List.map_map]
  induction m with
  | nil => rfl
  | cons hd tl ih =>
    simp only [List.map_cons, List.sum_cons, ih]
    congr 1
    exact rollItem_outD hd.2

/-- C8 amended: after a completed solve, the total `outflow_direct` summed over
all items and MRP dates equals the sum of `demand_qty` over the demand lines
whose due date lies within the MRP horizon `[start, start + horizon]` —
regardless of whether the item exists in the Item Master, since the outflow is
recorded before the master lookup. -/
theorem C8_amended (inp : Inputs) :
    ∀ (fuel : ℕ) (r : SolveResult), runSolver inp fuel = some r →
      totalOutD r.mrp = horizonDirectTotal inp := by
  intro fuel r hrun
  unfold runSolver at hrun
  cases hd : runDemands inp fuel with
  | none => rw [hd] at hrun; exact absurd hrun (by simp)
  | some s =>
    rw [hd] at hrun
    simp only [Option.map_some', Option.some.injEq] at hrun
    have hmrp : r.mrp = s.mrp.map (fun p => (p.1, rollItem p.2)) := by rw [← hrun]
    rw [hmrp, totalOutD_roll]
    unfold runDemands at hd
    have hinitWF : mrpWF inp (initState inp) := by
      intro p hp
      simp [initState] at hp
    obtain ⟨hΔ, _⟩ := runDemands_fold_outD inp fuel (sortDemand inp.demand) (initState inp)
      hinitWF s hd
    rw [hΔ]
    have hzero : totalOutD (initState inp).mrp = 0 := rfl
    rw [hzero, zero_add]
    unfold horizonDirectTotal
    exact List.Perm.sum_eq (List.Perm.map _ (sortDemand_perm inp.demand))

/-- C8 amended witness: on the unknown-item input the total direct outflow is
the full demand quantity `5` (the single line is due inside the horizon). -/
theorem C8_amended_witness :
    (runSolver inpUnknownItem 3).map (fun r => totalOutD r.mrp) =
      some (horizonDirectTotal inpUnknownItem) := by
  cases hval : runSolver inpUnknownItem 3 with
  | none =>
    have hs : (runSolver inpUnknownItem 3).isSome = true := by with_unfolding_all rfl
    rw [hval] at hs
    cases hs
  | some r =>
    simp only [Option.map_some', Option.some.injEq]
    exact C8_amended inpUnknownItem 3 r hval

end MrpSolver
